import Mathlib

/-!
Verification of the resume build pipeline (src/build.py).

The development shallowly embeds the text-substitution pipeline of the
build script: Python strings become `List Char`, YAML/JSON documents become
the inductive type `Json` (nested mappings with string keys, integer
numbers, booleans, strings, sequences and null, which is the value space
the resume and theme documents inhabit), and fallible Python code
(uncaught exceptions such as IndexError or AttributeError, and process
exits) is modelled with `Option`, where `none` means the process dies
without producing output.
-/

set_option maxRecDepth 4000

/-- Python `str.startswith` on character lists: `startsB pat s` is true when
`pat` is an initial segment of `s`. -/
def startsB : List Char → List Char → Bool
  | [], _ => true
  | _ :: _, [] => false
  | p :: ps, c :: cs => p == c && startsB ps cs

/-- Fuelled worker for `str.replace`: scan left to right, emitting the
replacement at each match of the (non-empty) pattern and skipping past it.
A match consumes at least one character, so fuel equal to the length of
the input never runs out. -/
def replaceAllF (pat rep : List Char) : Nat → List Char → List Char
  | 0, s => s
  | _ + 1, [] => []
  | f + 1, c :: cs =>
    if startsB pat (c :: cs) then
      rep ++ replaceAllF pat rep f ((c :: cs).drop pat.length)
    else
      c :: replaceAllF pat rep f cs

/-- Python `str.replace(pat, rep)`: replace every non-overlapping occurrence
of `pat` left to right.  An empty pattern leaves the string unchanged (the
build script never replaces an empty pattern). -/
def replaceAll (s pat rep : List Char) : List Char :=
  match pat with
  | [] => s
  | _ :: _ => replaceAllF pat rep s.length s

/-- Python `sep.join(parts)` on character lists. -/
def joinSep (sep : List Char) : List (List Char) → List Char
  | [] => []
  | [x] => x
  | x :: y :: rest => x ++ sep ++ joinSep sep (y :: rest)

mutual

/-- The value space of parsed YAML/JSON documents as the build script uses
them: nested mappings with string keys in insertion order, sequences,
strings, integers, booleans and null.  (Floating point numbers do not occur
in the documents and are outside the model.)  Sequences and mappings are
mutually inductive lists so that every traversal is structural. -/
inductive Json where
  | null : Json
  | bool (b : Bool) : Json
  | num (n : Int) : Json
  | str (s : List Char) : Json
  | arr (elems : JArr) : Json
  | obj (members : JObj) : Json

/-- The elements of a sequence document. -/
inductive JArr where
  | nil : JArr
  | cons (head : Json) (tail : JArr) : JArr

/-- The members of a mapping document, in insertion order. -/
inductive JObj where
  | nil : JObj
  | cons (key : List Char) (value : Json) (tail : JObj) : JObj

end

/-- The elements of a sequence as a plain list. -/
def JArr.toList : JArr → List Json
  | JArr.nil => []
  | JArr.cons x tl => x :: tl.toList

/-- A sequence from a plain list. -/
def JArr.ofList : List Json → JArr
  | [] => JArr.nil
  | x :: tl => JArr.cons x (JArr.ofList tl)

/-- The members of a mapping as a plain association list
(Python `dict.items()`). -/
def JObj.toList : JObj → List (List Char × Json)
  | JObj.nil => []
  | JObj.cons k v tl => (k, v) :: tl.toList

/-- A mapping from a plain association list. -/
def JObj.ofList : List (List Char × Json) → JObj
  | [] => JObj.nil
  | (k, v) :: tl => JObj.cons k v (JObj.ofList tl)

/-- Shorthand: a Json string from a string literal. -/
def jstr (s : String) : Json := Json.str s.data

/-- Shorthand: a sequence document from a list. -/
def jarr (l : List Json) : Json := Json.arr (JArr.ofList l)

/-- Shorthand: a mapping document from an association list. -/
def jobj (l : List (List Char × Json)) : Json := Json.obj (JObj.ofList l)

/-- First binding of a key in a member list (Python dicts have unique keys,
so first-match lookup is dict lookup). -/
def lookupKV (ms : List (List Char × Json)) (k : List Char) : Option Json :=
  match ms with
  | [] => none
  | (k', v) :: rest => if k' == k then some v else lookupKV rest k

/-- The member list of a mapping; `none` models the AttributeError /
TypeError a Python dict operation raises on a non-mapping. -/
def jMembers : Json → Option (List (List Char × Json))
  | Json.obj ms => some ms.toList
  | _ => none

/-- Key lookup on a document: `theme_config['light']` guarded by
`'light' in theme_config`.  Non-mapping documents have no keys (the
claims only concern mapping documents). -/
def jLookup (j : Json) (k : List Char) : Option Json :=
  match j with
  | Json.obj ms => lookupKV ms.toList k
  | _ => none

/-- `key in mapping` as a boolean. -/
def jHasKey (j : Json) (k : List Char) : Bool :=
  (jLookup j k).isSome

/-- Python truthiness of a parsed document (`if not theme_config`). -/
def jTruthy : Json → Bool
  | Json.null => false
  | Json.bool b => b
  | Json.num n => n != 0
  | Json.str s => !s.isEmpty
  | Json.arr JArr.nil => false
  | Json.arr (JArr.cons _ _) => true
  | Json.obj JObj.nil => false
  | Json.obj (JObj.cons _ _ _) => true

/-- Decimal digit character. -/
def digCh (n : Nat) : Char := Char.ofNat (48 + n)

/-- Lowercase hex digit character (as produced by the %04x format). -/
def hexDig (n : Nat) : Char :=
  if n < 10 then Char.ofNat (48 + n) else Char.ofNat (87 + n)

/-- Decimal digits of a natural number, most significant first. -/
def natReprGo (n : Nat) (acc : List Char) : List Char :=
  if h : n < 10 then digCh n :: acc
  else natReprGo (n / 10) (digCh (n % 10) :: acc)
termination_by n
decreasing_by exact Nat.div_lt_self (by omega) (by omega)

/-- Python `str(n)` for a natural number. -/
def natRepr (n : Nat) : List Char := natReprGo n []

/-- Python `str(n)` / `repr(n)` for an integer. -/
def intRepr (n : Int) : List Char :=
  if n < 0 then '-' :: natRepr n.natAbs else natRepr n.natAbs

/-- Python `repr` of a string, as used by `str` on containers: quote
choice follows CPython (single quotes unless the string has a single quote
and no double quote); backslashes, the delimiter and common control
characters are escaped.  (Escaping of other non-printable code points is
simplified; no claim depends on it.) -/
def pyReprStrBody (quote : Char) : List Char → List Char
  | [] => []
  | c :: cs =>
    (if c = '\\' then ['\\', '\\']
     else if c = quote then ['\\', quote]
     else if c = '\n' then ['\\', 'n']
     else if c = '\r' then ['\\', 'r']
     else if c = '\t' then ['\\', 't']
     else if c.toNat < 0x20 ∨ c.toNat = 0x7f then
       ['\\', 'x', hexDig (c.toNat / 16), hexDig (c.toNat % 16)]
     else [c]) ++ pyReprStrBody quote cs

/-- Python `repr` of a string value. -/
def pyReprStr (s : List Char) : List Char :=
  let quote := if s.contains '\'' && !(s.contains '"') then '"' else '\''
  quote :: pyReprStrBody quote s ++ [quote]

mutual

/-- Python `str(value)` for a parsed document value, as an f-string
renders it: strings verbatim, `None`, `True`/`False`, integers in decimal,
containers through `repr` (elements in `repr` form, strings quoted). -/
def pyStr : Json → List Char
  | Json.null => "None".data
  | Json.bool true => "True".data
  | Json.bool false => "False".data
  | Json.num n => intRepr n
  | Json.str s => s
  | Json.arr xs => '[' :: pyReprArr xs ++ [']']
  | Json.obj ms => '\x7b' :: pyReprObj ms ++ ['\x7d']

/-- Python `repr(value)`: as `str` except that strings are quoted. -/
def pyRepr : Json → List Char
  | Json.null => "None".data
  | Json.bool true => "True".data
  | Json.bool false => "False".data
  | Json.num n => intRepr n
  | Json.str s => pyReprStr s
  | Json.arr xs => '[' :: pyReprArr xs ++ [']']
  | Json.obj ms => '\x7b' :: pyReprObj ms ++ ['\x7d']

/-- Comma-separated `repr` forms of sequence elements. -/
def pyReprArr : JArr → List Char
  | JArr.nil => []
  | JArr.cons x JArr.nil => pyRepr x
  | JArr.cons x tl => pyRepr x ++ ", ".data ++ pyReprArr tl

/-- Comma-separated `repr` forms of mapping members. -/
def pyReprObj : JObj → List Char
  | JObj.nil => []
  | JObj.cons k v JObj.nil => pyReprStr k ++ ": ".data ++ pyRepr v
  | JObj.cons k v tl =>
    pyReprStr k ++ ": ".data ++ pyRepr v ++ ", ".data ++ pyReprObj tl

end

/-- Escaping of one character by `json.dumps` with `ensure_ascii=False`:
backslash, double quote and the named control characters get two-character
escapes, remaining control characters a `\u00XX` escape, and every other
character (non-ASCII included) passes through unescaped. -/
def escChar (c : Char) : List Char :=
  if c = '\\' then ['\\', '\\']
  else if c = '"' then ['\\', '"']
  else if c = '\x08' then ['\\', 'b']
  else if c = '\x0c' then ['\\', 'f']
  else if c = '\n' then ['\\', 'n']
  else if c = '\r' then ['\\', 'r']
  else if c = '\t' then ['\\', 't']
  else if c.toNat < 0x20 then
    ['\\', 'u', '0', '0', hexDig (c.toNat / 16), hexDig (c.toNat % 16)]
  else [c]

/-- Escaped body of a serialized JSON string. -/
def escList : List Char → List Char
  | [] => []
  | c :: cs => escChar c ++ escList cs

/-- A serialized JSON string, quotes included. -/
def serStr (s : List Char) : List Char := '"' :: escList s ++ ['"']

/-- `indent=2` indentation for nesting depth `d`. -/
def ind (d : Nat) : List Char := List.replicate (2 * d) ' '

mutual

/-- `json.dumps(data, indent=2, ensure_ascii=False)` at nesting depth `d`:
key insertion order is preserved, items are joined with `,\n` plus
indentation, empty containers print without inner newline. -/
def serVal (d : Nat) : Json → List Char
  | Json.null => "null".data
  | Json.bool true => "true".data
  | Json.bool false => "false".data
  | Json.num n => intRepr n
  | Json.str s => serStr s
  | Json.arr JArr.nil => ['[', ']']
  | Json.arr (JArr.cons x xs) =>
    '[' :: '\n' :: ind (d + 1) ++ serVal (d + 1) x ++ serTail (d + 1) xs
      ++ '\n' :: ind d ++ [']']
  | Json.obj JObj.nil => ['\x7b', '\x7d']
  | Json.obj (JObj.cons k v ms) =>
    '\x7b' :: '\n' :: ind (d + 1) ++ serStr k ++ ':' :: ' ' :: serVal (d + 1) v
      ++ serOTail (d + 1) ms ++ '\n' :: ind d ++ ['\x7d']

/-- Array items after the first: comma, newline, indentation, item. -/
def serTail (d : Nat) : JArr → List Char
  | JArr.nil => []
  | JArr.cons y ys => ',' :: '\n' :: ind d ++ serVal d y ++ serTail d ys

/-- Object members after the first: comma, newline, indentation, member. -/
def serOTail (d : Nat) : JObj → List Char
  | JObj.nil => []
  | JObj.cons k v ms =>
    ',' :: '\n' :: ind d ++ serStr k ++ ':' :: ' ' :: serVal d v ++ serOTail d ms

end

/-- Top-level serialization used by the Data Embedder. -/
def dumps (j : Json) : List Char := serVal 0 j

/-- Whitespace skipped by the JSON parser between tokens. -/
def isJsWs (c : Char) : Bool := c = ' ' || c = '\t' || c = '\n' || c = '\r'

/-- Drop leading JSON whitespace. -/
def skipWs : List Char → List Char
  | [] => []
  | c :: cs => if isJsWs c then skipWs cs else c :: cs

/-- Decimal digit test. -/
def isDigitCh (c : Char) : Bool := 48 ≤ c.toNat && c.toNat ≤ 57

/-- Value of a hex digit character, as `json.loads` reads `\uXXXX`. -/
def hexVal (c : Char) : Option Nat :=
  if 48 ≤ c.toNat ∧ c.toNat ≤ 57 then some (c.toNat - 48)
  else if 97 ≤ c.toNat ∧ c.toNat ≤ 102 then some (c.toNat - 87)
  else if 65 ≤ c.toNat ∧ c.toNat ≤ 70 then some (c.toNat - 55)
  else none

/-- Two-character escapes accepted inside a JSON string. -/
def unescCh (c : Char) : Option Char :=
  if c = '"' then some '"'
  else if c = '\\' then some '\\'
  else if c = '/' then some '/'
  else if c = 'b' then some '\x08'
  else if c = 'f' then some '\x0c'
  else if c = 'n' then some '\n'
  else if c = 'r' then some '\r'
  else if c = 't' then some '\t'
  else none

/-- Body of a JSON string after the opening quote, in the strict mode of
`json.loads`: raw control characters are rejected, escapes are decoded.
(Surrogate pairing for `\uXXXX` beyond the basic plane is elided; the
serializer only emits `\u00XX`.) -/
def parseStrBody : List Char → Option (List Char × List Char)
  | [] => none
  | c :: r =>
    if c = '"' then some ([], r)
    else if c = '\\' then
      match r with
      | [] => none
      | e :: r2 =>
        if e = 'u' then
          match r2 with
          | a :: b :: c2 :: d2 :: r3 => do
            let ha ← hexVal a
            let hb ← hexVal b
            let hc ← hexVal c2
            let hd ← hexVal d2
            let code := ((ha * 16 + hb) * 16 + hc) * 16 + hd
            if code < 0xd800 then
              (parseStrBody r3).map fun p => (Char.ofNat code :: p.1, p.2)
            else none
          | _ => none
        else do
          let ec ← unescCh e
          (parseStrBody r2).map fun p => (ec :: p.1, p.2)
    else if c.toNat < 0x20 then none
    else (parseStrBody r).map fun p => (c :: p.1, p.2)
termination_by cs => cs.length
decreasing_by all_goals (simp only [List.length_cons]; omega)

/-- Longest leading run of decimal digits. -/
def spanDigits : List Char → List Char × List Char
  | [] => ([], [])
  | c :: cs =>
    if isDigitCh c then
      let p := spanDigits cs
      (c :: p.1, p.2)
    else ([], c :: cs)

/-- Numeric value of a digit run. -/
def digitsVal (ds : List Char) : Nat :=
  ds.foldl (fun a c => 10 * a + (c.toNat - 48)) 0

/-- An integer literal as `json.loads` reads one (the serialized resume
data contains no floats). -/
def parseNum : List Char → Option (Int × List Char)
  | [] => none
  | c :: r =>
    if c = '-' then
      match spanDigits r with
      | ([], _) => none
      | (ds, rest) => some (-(digitsVal ds : Int), rest)
    else
      match spanDigits (c :: r) with
      | ([], _) => none
      | (ds, rest) => some ((digitsVal ds : Int), rest)

mutual

/-- One JSON value, fuelled recursive descent. -/
def parseVal : Nat → List Char → Option (Json × List Char)
  | 0, _ => none
  | f + 1, cs0 =>
    let cs := skipWs cs0
    if startsB "null".data cs then some (Json.null, cs.drop 4)
    else if startsB "true".data cs then some (Json.bool true, cs.drop 4)
    else if startsB "false".data cs then some (Json.bool false, cs.drop 5)
    else
      match cs with
      | [] => none
      | c :: r =>
        if c = '"' then (parseStrBody r).map fun p => (Json.str p.1, p.2)
        else if c = '[' then
          match skipWs r with
          | [] => none
          | c2 :: r2 =>
            if c2 = ']' then some (Json.arr JArr.nil, r2)
            else (parseElems f (c2 :: r2)).map fun p => (Json.arr p.1, p.2)
        else if c = '\x7b' then
          match skipWs r with
          | [] => none
          | c2 :: r2 =>
            if c2 = '\x7d' then some (Json.obj JObj.nil, r2)
            else (parseMembers f (c2 :: r2)).map fun p => (Json.obj p.1, p.2)
        else if isDigitCh c || c = '-' then
          (parseNum (c :: r)).map fun p => (Json.num p.1, p.2)
        else none

/-- Elements of a non-empty JSON array, up to and including the closing
bracket. -/
def parseElems : Nat → List Char → Option (JArr × List Char)
  | 0, _ => none
  | f + 1, cs => do
    let (v, r) ← parseVal f cs
    match skipWs r with
    | [] => none
    | c :: r2 =>
      if c = ',' then (parseElems f r2).map fun p => (JArr.cons v p.1, p.2)
      else if c = ']' then some (JArr.cons v JArr.nil, r2)
      else none

/-- Members of a non-empty JSON object, up to and including the closing
brace. -/
def parseMembers : Nat → List Char → Option (JObj × List Char)
  | 0, _ => none
  | f + 1, cs =>
    match skipWs cs with
    | [] => none
    | c :: r =>
      if c = '"' then do
        let (k, r1) ← parseStrBody r
        match skipWs r1 with
        | [] => none
        | c2 :: r2 =>
          if c2 = ':' then do
            let (v, r3) ← parseVal f r2
            match skipWs r3 with
            | [] => none
            | c3 :: r4 =>
              if c3 = ',' then (parseMembers f r4).map fun p => (JObj.cons k v p.1, p.2)
              else if c3 = '\x7d' then some (JObj.cons k v JObj.nil, r4)
              else none
          else none
      else none

end

/-- `json.loads` on the serialized grammar: parse one value, then require
only whitespace to remain. -/
def loads (cs : List Char) : Option Json :=
  match parseVal (cs.length + 1) cs with
  | some (v, rest) => if skipWs rest = [] then some v else none
  | none => none

mutual

/-- Recursion budget of a document for the fuelled parser. -/
def jsizeV : Json → Nat
  | Json.null => 1
  | Json.bool _ => 1
  | Json.num _ => 1
  | Json.str _ => 1
  | Json.arr xs => 1 + jsizeL xs
  | Json.obj ms => 1 + jsizeO ms

/-- Budget of an array element list. -/
def jsizeL : JArr → Nat
  | JArr.nil => 1
  | JArr.cons x xs => 1 + jsizeV x + jsizeL xs

/-- Budget of an object member list. -/
def jsizeO : JObj → Nat
  | JObj.nil => 1
  | JObj.cons _ v ms => 1 + jsizeV v + jsizeO ms

end

/-- Python whitespace: the exact code-point set that `str.split()` (via
`str.isspace`) and the regex class `\s` on text patterns both accept —
the ASCII controls 9–13, the information separators 28–31, the space,
NEL (U+0085), NBSP (U+00A0), OGHAM space (U+1680), the typographic
spaces U+2000–U+200A, the line and paragraph separators U+2028/U+2029,
U+202F, U+205F and the ideographic space U+3000. -/
def isPyWs (c : Char) : Bool :=
  let n := c.toNat
  (9 ≤ n && n ≤ 13) || (28 ≤ n && n ≤ 32) || n == 0x85 || n == 0xa0
    || n == 0x1680 || (0x2000 ≤ n && n ≤ 0x200a) || n == 0x2028
    || n == 0x2029 || n == 0x202f || n == 0x205f || n == 0x3000

/-- Accumulator worker for `str.split()`. -/
def splitWsAux : List Char → List Char → List (List Char)
  | [], acc => if acc.isEmpty then [] else [acc.reverse]
  | c :: r, acc =>
    if isPyWs c then
      if acc.isEmpty then splitWsAux r [] else acc.reverse :: splitWsAux r []
    else splitWsAux r (c :: acc)

/-- Python `str.split()` with no argument: split on whitespace runs,
dropping empty fields. -/
def pySplitWs (s : List Char) : List (List Char) := splitWsAux s []

/-- The string value of a document node; `none` models the AttributeError
of calling `str.replace` on a non-string. -/
def asStr : Json → Option (List Char)
  | Json.str s => some s
  | _ => none

/-- The placeholder token for the page title. -/
def pageTitleTok : List Char := "\x7b\x7b PAGE_TITLE \x7d\x7d".data

/-- The placeholder token for the meta description. -/
def metaTok : List Char := "\x7b\x7b META_DESCRIPTION \x7d\x7d".data

/-- The placeholder token for the JSON-LD block. -/
def jsonLdTok : List Char := "\x7b\x7b JSON_LD \x7d\x7d".data

/-- The placeholder token for the serialized resume data. -/
def cvDataTok : List Char := "\x7b\x7b CV_DATA \x7d\x7d".data

/-- The marker comment line removed by the Data Embedder. -/
def markerLine : List Char :=
  "        // CV Data Placeholder - Will be replaced by build script\n".data

/-- `generate_json_ld`: a fixed comment placeholder, independent of the
data. -/
def generate_json_ld (_data : Json) : List Char :=
  "<!-- JSON-LD Schema generated dynamically by JavaScript -->".data

/-- `embed_seo`: derive the page title from `basics.name` / `basics.label`
(an f-string renders a missing key, Python `None`, as the text `None`),
derive the description from `basics.intro.text` with double quotes turned
into `&quot;` and whitespace runs collapsed to single spaces, and replace
the three placeholder tokens. -/
def embed_seo (template : List Char) (data : Json) : Option (List Char) := do
  let dm ← jMembers data
  let basics := (lookupKV dm "basics".data).getD (jobj [])
  let bm ← jMembers basics
  let pageTitle := pyStr ((lookupKV bm "name".data).getD Json.null)
    ++ " - ".data ++ pyStr ((lookupKV bm "label".data).getD Json.null)
  let t1 := replaceAll template pageTitleTok pageTitle
  let intro := (lookupKV bm "intro".data).getD (jobj [])
  let im ← jMembers intro
  let textS ← asStr ((lookupKV im "text".data).getD (Json.str []))
  let desc := joinSep [' '] (pySplitWs (replaceAll textS ['"'] "&quot;".data))
  let t2 := replaceAll t1 metaTok desc
  some (replaceAll t2 jsonLdTok (generate_json_ld data))

/-- `embed_data`: serialize the resume document, delete the marker comment
line, and substitute the data placeholder. -/
def embed_data (template : List Char) (data : Json) : List Char :=
  let jsonData := dumps data
  let t := replaceAll template markerLine []
  replaceAll t cvDataTok jsonData

/-- Drop the longest leading run of regex whitespace (greedy and
deterministic: whitespace never matches the literal that follows). -/
def dropReWs : List Char → List Char
  | [] => []
  | c :: cs => if isPyWs c then dropReWs cs else c :: cs

/-- Require a literal prefix and return the remainder. -/
def stripLit (lit cs : List Char) : Option (List Char) :=
  if startsB lit cs then some (cs.drop lit.length) else none

/-- Longest leading run of characters other than a closing brace
(the greedy character class of the pattern). -/
def spanNonBrace : List Char → List Char × List Char
  | [] => ([], [])
  | c :: cs =>
    if c = '\x7d' then ([], c :: cs)
    else
      let p := spanNonBrace cs
      (c :: p.1, p.2)

/-- Match of the theme block regex at the head of the input, returning the
remainder on success.  The pattern — colon-root, optional whitespace, an
open brace, one or more non-brace characters, a close brace, optional
whitespace, dot-dark, optional whitespace, an open brace, one or more
non-brace characters, a close brace — is deterministic: every greedy piece
is followed by a literal its class cannot match, so no backtracking can
occur and this functional matcher computes exactly the regex match. -/
def matchRegion (cs : List Char) : Option (List Char) := do
  let r1 ← stripLit ":root".data cs
  let r3 ← stripLit ['\x7b'] (dropReWs r1)
  let p1 := spanNonBrace r3
  if p1.1.isEmpty then none
  else do
    let r5 ← stripLit ['\x7d'] p1.2
    let r7 ← stripLit ".dark".data (dropReWs r5)
    let r9 ← stripLit ['\x7b'] (dropReWs r7)
    let p2 := spanNonBrace r9
    if p2.1.isEmpty then none
    else stripLit ['\x7d'] p2.2

/-- `re.search` for the theme block pattern: does it match anywhere? -/
def regexSearchB : List Char → Bool
  | [] => false
  | c :: cs => (matchRegion (c :: cs)).isSome || regexSearchB cs

/-- One parsed item of a `re.sub` replacement template: a literal
character, or a reference to group 0 (the whole match) — the only group
the theme block pattern has. -/
inductive RepItem where
  | lit (c : Char)
  | grp0

/-- Octal digit test. -/
def isOctCh (c : Char) : Bool := 48 ≤ c.toNat && c.toNat ≤ 55

/-- ASCII letter test (the characters whose unknown escapes `re`
reserves and rejects). -/
def isAsciiLetter (c : Char) : Bool :=
  (65 ≤ c.toNat && c.toNat ≤ 90) || (97 ≤ c.toNat && c.toNat ≤ 122)

/-- Value of a decimal digit character. -/
def dVal (c : Char) : Nat := c.toNat - 48

/-- The name between `\g<` and `>`, with the remainder after the `>`;
`none` when the template ends before a `>` (a `re.error`). -/
def spanName : List Char → Option (List Char × List Char)
  | [] => none
  | c :: cs =>
    if c = '>' then some ([], cs)
    else (spanName cs).map fun p => (c :: p.1, p.2)

/-- A group name Python treats as an identifier (looked up among named
groups, of which the pattern has none): a letter or underscore followed
by letters, digits and underscores (ASCII; a non-ASCII identifier also
names no group and errs the same way). -/
def isIdentName (name : List Char) : Bool :=
  match name with
  | [] => false
  | c :: r =>
    (isAsciiLetter c || c = '_')
      && r.all fun x => isAsciiLetter x || isDigitCh x || x = '_'

/-- Digits with single interior underscores, as `int()` accepts
(`10`, `1_0`; not `_1`, `1_`, `1__0`), accumulating the value. -/
def duGo : Nat → List Char → Option Nat
  | acc, [] => some acc
  | acc, '_' :: c :: r =>
    if isDigitCh c then duGo (10 * acc + dVal c) r else none
  | _, ['_'] => none
  | acc, c :: r =>
    if isDigitCh c then duGo (10 * acc + dVal c) r else none

/-- Nonempty underscore-grouped digit run. -/
def duVal : List Char → Option Nat
  | [] => none
  | c :: r => if isDigitCh c then duGo (dVal c) r else none

/-- Leading and trailing Python whitespace removed (what `int()` strips
from a group name). -/
def stripEnds (l : List Char) : List Char :=
  (dropReWs (dropReWs l).reverse).reverse

/-- `int(name)` on a `\g<name>` group name: optional surrounding
whitespace and sign, then an underscore-grouped digit run (the sign is
immaterial here — any nonzero index names a group the pattern lacks). -/
def intName (name : List Char) : Option Nat :=
  match stripEnds name with
  | '+' :: r => duVal r
  | '-' :: r => duVal r
  | r => duVal r

/-- Fuelled worker for `re`'s `parse_template` on the replacement string
of `re.sub`, for a pattern with no capture groups: literal characters
pass through; `\\` and the named escapes `\a \b \f \n \r \t \v`
decode (`\b` is a backspace here, not a word boundary); any other
escaped ASCII letter (such as `\d`) is a `re.error`, as is a trailing
backslash; an escaped non-letter (`\&`) is left alone, both characters;
`\0` starts an octal escape of up to two more octal digits, and
`\DDD` with three octal digits is an octal escape up to `\377`; any
other `\1`–`\99` is an invalid group reference; `\g<name>` errs for
every name except one that `int()` reads as 0, which inserts the whole
match.  `none` is the raised `re.error` (or `IndexError`). -/
def parseTmplF : Nat → List Char → Option (List RepItem)
  | 0, _ => none
  | _ + 1, [] => some []
  | f + 1, c :: rest =>
    if c = '\\' then
      match rest with
      | [] => none
      | e :: r2 =>
        if e = 'g' then
          match r2 with
          | '<' :: r3 =>
            match spanName r3 with
            | none => none
            | some (name, r4) =>
              if isIdentName name then none
              else
                match intName name with
                | some 0 => (parseTmplF f r4).map fun l => RepItem.grp0 :: l
                | _ => none
          | _ => none
        else if e = '0' then
          match r2 with
          | d1 :: d2 :: r4 =>
            if isOctCh d1 then
              if isOctCh d2 then
                (parseTmplF f r4).map fun l =>
                  RepItem.lit (Char.ofNat (8 * dVal d1 + dVal d2)) :: l
              else
                (parseTmplF f (d2 :: r4)).map fun l =>
                  RepItem.lit (Char.ofNat (dVal d1)) :: l
            else (parseTmplF f (d1 :: d2 :: r4)).map fun l =>
              RepItem.lit '\x00' :: l
          | [d1] =>
            if isOctCh d1 then
              (parseTmplF f []).map fun l =>
                RepItem.lit (Char.ofNat (dVal d1)) :: l
            else (parseTmplF f [d1]).map fun l => RepItem.lit '\x00' :: l
          | [] => (parseTmplF f []).map fun l => RepItem.lit '\x00' :: l
        else if isDigitCh e then
          match r2 with
          | d2 :: d3 :: r4 =>
            if isDigitCh d2 then
              if isOctCh e && isOctCh d2 && isOctCh d3 then
                if 64 * dVal e + 8 * dVal d2 + dVal d3 ≤ 255 then
                  (parseTmplF f r4).map fun l =>
                    RepItem.lit (Char.ofNat
                      (64 * dVal e + 8 * dVal d2 + dVal d3)) :: l
                else none
              else none
            else none
          | _ => none
        else if e = '\\' then (parseTmplF f r2).map fun l => RepItem.lit '\\' :: l
        else if e = 'a' then
          (parseTmplF f r2).map fun l => RepItem.lit '\x07' :: l
        else if e = 'b' then
          (parseTmplF f r2).map fun l => RepItem.lit '\x08' :: l
        else if e = 'f' then
          (parseTmplF f r2).map fun l => RepItem.lit '\x0c' :: l
        else if e = 'n' then
          (parseTmplF f r2).map fun l => RepItem.lit '\n' :: l
        else if e = 'r' then
          (parseTmplF f r2).map fun l => RepItem.lit '\r' :: l
        else if e = 't' then
          (parseTmplF f r2).map fun l => RepItem.lit '\t' :: l
        else if e = 'v' then
          (parseTmplF f r2).map fun l => RepItem.lit '\x0b' :: l
        else if isAsciiLetter e then none
        else (parseTmplF f r2).map fun l =>
          RepItem.lit '\\' :: RepItem.lit e :: l
    else (parseTmplF f rest).map fun l => RepItem.lit c :: l

/-- `re`'s `parse_template` on a replacement string (each step consumes
at least one character, so fuel equal to the length never runs out). -/
def parseTmpl (cs : List Char) : Option (List RepItem) :=
  parseTmplF (cs.length + 1) cs

/-- `expand_template`: the parsed items with every group-0 reference
replaced by the matched text. -/
def expandT : List RepItem → List Char → List Char
  | [], _ => []
  | RepItem.lit c :: r, m => c :: expandT r m
  | RepItem.grp0 :: r, m => m ++ expandT r m

/-- Fuelled worker for `re.sub`: replace every non-overlapping match,
scanning left to right; at each match the parsed replacement template is
expanded against the matched text.  A successful match always consumes
at least one character, so fuel equal to the length of the input never
runs out. -/
def subAllF (rep : List RepItem) : Nat → List Char → List Char
  | 0, cs => cs
  | _ + 1, [] => []
  | f + 1, c :: cs =>
    match matchRegion (c :: cs) with
    | some rest =>
      expandT rep ((c :: cs).take ((c :: cs).length - rest.length))
        ++ subAllF rep f rest
    | none => c :: subAllF rep f cs

/-- The substitution pass of `re.sub(pattern, rep, template)` for the
theme block pattern, on an already parsed replacement template. -/
def subAll (cs : List Char) (rep : List RepItem) : List Char :=
  subAllF rep cs.length cs

/-- The closing of a generated declaration block: newline, eight spaces
and a closing brace.  `generate_css_variables` splices new declarations in
front of it with `str.replace`. -/
def rootPat : List Char := "\n        \x7d".data

/-- One generated declaration line: twelve spaces, a variable name built
from the category prefix and the key with underscores turned into hyphens,
and the rendered value. -/
def cssVarLine (pre : List Char) (kv : List Char × Json) : List Char :=
  "            --".data ++ pre ++ replaceAll kv.1 ['_'] ['-']
    ++ ": ".data ++ pyStr kv.2 ++ [';']

/-- Splicing of category lines into the first block of the accumulated
list (`css_vars[0].replace(...)`): skipped when no lines were generated;
`none` models the IndexError raised when the list is empty. -/
def insertVars (vars : List (List Char)) (lines : List (List Char)) :
    Option (List (List Char)) :=
  if lines.isEmpty then some vars
  else
    match vars with
    | [] => none
    | v0 :: rest =>
      some (replaceAll v0 rootPat ('\n' :: joinSep ['\n'] lines ++ rootPat) :: rest)

/-- One category section (`scrollbar`, `decorative_light`,
`logo_gradients`): when the key is present, iterate its items into
prefixed declaration lines and splice them into the first accumulated
block. -/
def gcvStep (theme : Json) (k pre : List Char) (vars : List (List Char)) :
    Option (List (List Char)) :=
  match jLookup theme k with
  | none => some vars
  | some sv => do
    let items ← jMembers sv
    insertVars vars (items.map (cssVarLine pre))

/-- The `light` section: when present, a root-scoped block with one
declaration line per item. -/
def lightStep (theme : Json) : Option (List (List Char)) :=
  match jLookup theme "light".data with
  | none => some []
  | some lv => do
    let items ← jMembers lv
    some ["        :root \x7b\n".data
      ++ joinSep ['\n'] (items.map (cssVarLine [])) ++ rootPat]

/-- The `dark` section: when present, append a dark-scoped block. -/
def darkStep (theme : Json) (vars : List (List Char)) :
    Option (List (List Char)) :=
  match jLookup theme "dark".data with
  | none => some vars
  | some dv => do
    let items ← jMembers dv
    some (vars ++ ["\n\n        .dark \x7b\n".data
      ++ joinSep ['\n'] (items.map (cssVarLine [])) ++ rootPat])

/-- The `decorative_dark` section: spliced into the second accumulated
block, and only when more than one block exists (the guard in the source
short-circuits, so a missing dark block is not an error here). -/
def decorativeDarkStep (theme : Json) (vars : List (List Char)) :
    Option (List (List Char)) :=
  match jLookup theme "decorative_dark".data with
  | none => some vars
  | some dv =>
    if vars.length > 1 then do
      let items ← jMembers dv
      let lines := items.map (cssVarLine "decorative-".data)
      if lines.isEmpty then some vars
      else
        match vars with
        | v0 :: v1' :: rest =>
          some (v0 :: (replaceAll v1' rootPat
            ('\n' :: joinSep ['\n'] lines ++ rootPat)) :: rest)
        | _ => none
    else some vars

/-- `generate_css_variables`: build the root block from the `light`
section, a dark block from the `dark` section, then splice `scrollbar`,
`decorative_light`, `decorative_dark` (into the dark block, and only when
more than one block exists) and `logo_gradients` declarations, in that
order, and join the blocks with a newline. -/
def generate_css_variables (theme : Json) : Option (List Char) :=
  if !jTruthy theme then some [] else do
  let v1 ← lightStep theme
  let v2 ← darkStep theme v1
  let v3 ← gcvStep theme "scrollbar".data "scrollbar-".data v2
  let v4 ← gcvStep theme "decorative_light".data "decorative-".data v3
  let v5 ← decorativeDarkStep theme v4
  let v6 ← gcvStep theme "logo_gradients".data "logo-".data v5
  pure (joinSep ['\n'] v6)

/-- The literal scrollbar thumb declaration the template carries. -/
def thumbLit : List Char := "background: #313847;".data

/-- The literal scrollbar thumb hover declaration the template carries. -/
def thumbHoverLit : List Char := "background: #3f4759;".data

/-- The variable reference replacing the thumb literal. -/
def thumbRep : List Char := "background: var(--scrollbar-thumb);".data

/-- The variable reference replacing the thumb hover literal. -/
def thumbHoverRep : List Char := "background: var(--scrollbar-thumb-hover);".data

/-- `embed_theme`: for a truthy theme document, generate the declaration
blocks; when the theme block pattern occurs in the template, run
`re.sub`, which first parses the generated text as a replacement
template (raising `re.error` on bad escapes — `none` here) and then
substitutes its expansion for every match; finally replace the two fixed
scrollbar color literals when the theme defines `thumb` / `thumb_hover`
under `scrollbar`. -/
def embed_theme (template : List Char) (theme : Json) : Option (List Char) :=
  if !jTruthy theme then some template else do
  let css ← generate_css_variables theme
  let t1 ← if regexSearchB template then
      (parseTmpl css).map fun rep => subAll template rep
    else some template
  match jLookup theme "scrollbar".data with
  | none => some t1
  | some sv =>
    let t2 := if jHasKey sv "thumb".data then replaceAll t1 thumbLit thumbRep else t1
    let t3 := if jHasKey sv "thumb_hover".data then
        replaceAll t2 thumbHoverLit thumbHoverRep
      else t2
    some t3

/-- The loaded inputs of one build: the parsed resume document (`none`
when the file is missing or malformed, which exits the process), the
template text (`none` when missing), and the theme file state (`none`
when the file does not exist, `some none` when it exists but is
malformed, `some (some t)` when it parses to `t`). -/
structure BuildInputs where
  cv : Option Json
  template : Option (List Char)
  themeFile : Option (Option Json)

/-- `main` as a function from loaded inputs to the written output:
`some out` means the build succeeds and writes exactly `out`; `none`
means the process exits non-zero before writing anything. -/
def runBuild (i : BuildInputs) : Option (List Char) := do
  let cvData ← i.cv
  let tmpl ← i.template
  let t1 ← match i.themeFile with
    | none => some tmpl
    | some none => none
    | some (some theme) => embed_theme tmpl theme
  let t2 ← embed_seo t1 cvData
  some (embed_data t2 cvData)

/-- A run of JSON whitespace. -/
def wsOnly (w : List Char) : Prop := ∀ c ∈ w, isJsWs c = true

/-- A follow-up that cannot extend a number literal: its first character,
if any, is not a digit.  Inside serialized output a value is always
followed by a comma, a newline, a closing bracket or brace, or nothing. -/
def restOK (rest : List Char) : Prop :=
  ∀ c, rest.head? = some c → isDigitCh c = false

/-- Round-trip contract of one serialized value: with enough fuel, the
parser consumes exactly the serialization (after any leading whitespace)
and returns the value and the untouched remainder. -/
def SerParses (v : Json) : Prop :=
  ∀ f d rest w, jsizeV v ≤ f → wsOnly w → restOK rest →
    parseVal f (w ++ serVal d v ++ rest) = some (v, rest)

/-- No suffix of `s`, continued by `cont`, starts the block closing
pattern: splicing in front of the final closing is then the only
replacement. -/
def SafeSeg (s cont : List Char) : Prop :=
  ∀ t, t <:+ s → t ≠ [] → startsB rootPat (t ++ cont) = false

/-- A theme section, when present, is a mapping (so that iterating its
items cannot raise). -/
def sectionOk (tms : List (List Char × Json)) (k : List Char) : Prop :=
  ∀ v, lookupKV tms k = some v → (jMembers v).isSome = true

/-- The resume document of the worked SEO example. -/
def docC2 : Json :=
  jobj [("basics".data, jobj
    [("name".data, jstr "A"), ("label".data, jstr "B"),
     ("intro".data, jobj
       [("text".data, Json.str ['x', ' ', '"', 'y', '"', '\n', 'z'])])])]

/-- A resume document whose basics mapping is empty. -/
def docBasicsEmpty : Json := jobj [("basics".data, jobj [])]

/-- A resume document whose basics key is bound to a plain string. -/
def docBasicsStr : Json := jobj [("basics".data, jstr "hello")]

/-- A theme with only a light section. -/
def themeLightOnly : Json :=
  jobj [("light".data, jobj [("c".data, jstr "1")])]

/-- A template fragment matched by the theme block pattern. -/
def regionS : List Char := ":root \x7ba\x7d .dark \x7bb\x7d".data

/-- The declaration block generated from `themeLightOnly`. -/
def cssLightOnly : List Char :=
  "        :root \x7b\n            --c: 1;\n        \x7d".data

/-- A theme with only a scrollbar section. -/
def themeScrollbarOnly : Json :=
  jobj [("scrollbar".data, jobj [("thumb".data, jstr "#112233")])]

theorem startsB_refl_append (p t : List Char) : startsB p (p ++ t) = true := by
  induction p with
  | nil => rfl
  | cons c cs ih => simp [startsB, ih]

theorem startsB_exists (p s : List Char) (h : startsB p s = true) :
    ∃ t, p ++ t = s := by
  induction p generalizing s with
  | nil => exact ⟨s, rfl⟩
  | cons c cs ih =>
    cases s with
    | nil => simp [startsB] at h
    | cons c2 s2 =>
      simp [startsB] at h
      obtain ⟨t, ht⟩ := ih s2 h.2
      exact ⟨t, by simp [h.1, ht]⟩

theorem startsB_length_le (p s : List Char) (h : startsB p s = true) :
    p.length ≤ s.length := by
  obtain ⟨t, rfl⟩ := startsB_exists p s h
  simp

theorem insertVars_cons (v0 : List Char) (rest lines : List (List Char)) :
    insertVars (v0 :: rest) lines
      = some ((if lines.isEmpty then v0
          else replaceAll v0 rootPat ('\n' :: joinSep ['\n'] lines ++ rootPat))
        :: rest) := by
  by_cases h : lines.isEmpty <;> simp [insertVars, h]

theorem JObj_toList_ofList (l : List (List Char × Json)) :
    (JObj.ofList l).toList = l := by
  induction l with
  | nil => rfl
  | cons kv tl ih => obtain ⟨k, v⟩ := kv; simp [JObj.ofList, JObj.toList, ih]

theorem jMembers_jobj (l : List (List Char × Json)) :
    jMembers (jobj l) = some l := by
  simp [jMembers, jobj, JObj_toList_ofList]

theorem expandT_lits (l : List Char) (m : List Char) :
    expandT (l.map RepItem.lit) m = l := by
  induction l with
  | nil => rfl
  | cons c cs ih =>
    show c :: expandT (cs.map RepItem.lit) m = c :: cs
    rw [ih]

theorem jLookup_jobj (l : List (List Char × Json)) (k : List Char) :
    jLookup (jobj l) k = lookupKV l k := by
  simp [jLookup, jobj, JObj_toList_ofList]

theorem gcvStep_ne (tms : List (List Char × Json)) (k pre : List Char)
    (hok : sectionOk tms k) (vars : List (List Char)) (hv : vars ≠ []) :
    ∃ out, gcvStep (jobj tms) k pre vars = some out ∧ out ≠ [] := by
  rcases hl : lookupKV tms k with _ | sv
  · exact ⟨vars, by simp [gcvStep, jLookup_jobj, hl], hv⟩
  · obtain ⟨items, hitems⟩ := Option.isSome_iff_exists.mp (hok sv hl)
    obtain ⟨v0, rest, rfl⟩ : ∃ v0 rest, vars = v0 :: rest := by
      cases vars with
      | nil => exact absurd rfl hv
      | cons a b => exact ⟨a, b, rfl⟩
    refine ⟨(if (items.map (cssVarLine pre)).isEmpty then v0
        else replaceAll v0 rootPat
          ('\n' :: joinSep ['\n'] (items.map (cssVarLine pre)) ++ rootPat))
      :: rest, ?_, by simp⟩
    simp only [gcvStep, jLookup_jobj, hl, hitems, Option.bind_eq_bind,
      Option.some_bind, insertVars_cons]

theorem darkStep_ne (tms : List (List Char × Json))
    (hok : sectionOk tms "dark".data) (vars : List (List Char))
    (hv : vars ≠ []) :
    ∃ out, darkStep (jobj tms) vars = some out ∧ out ≠ [] := by
  rcases hl : lookupKV tms "dark".data with _ | dv
  · exact ⟨vars, by simp [darkStep, jLookup_jobj, hl], hv⟩
  · obtain ⟨items, hitems⟩ := Option.isSome_iff_exists.mp (hok dv hl)
    refine ⟨vars ++ ["\n\n        .dark \x7b\n".data
      ++ joinSep ['\n'] (items.map (cssVarLine [])) ++ rootPat], ?_, by simp⟩
    simp only [darkStep, jLookup_jobj, hl, hitems, Option.bind_eq_bind,
      Option.some_bind]

theorem decorativeDarkStep_ne (tms : List (List Char × Json))
    (hok : sectionOk tms "decorative_dark".data) (vars : List (List Char))
    (hv : vars ≠ []) :
    ∃ out, decorativeDarkStep (jobj tms) vars = some out ∧ out ≠ [] := by
  rcases hl : lookupKV tms "decorative_dark".data with _ | dv
  · exact ⟨vars, by simp [decorativeDarkStep, jLookup_jobj, hl], hv⟩
  · obtain ⟨items, hitems⟩ := Option.isSome_iff_exists.mp (hok dv hl)
    by_cases hlen : vars.length > 1
    · obtain ⟨v0, v1', rest, rfl⟩ : ∃ v0 v1' rest, vars = v0 :: v1' :: rest := by
        match vars, hlen with
        | v0 :: v1' :: rest, _ => exact ⟨v0, v1', rest, rfl⟩
      by_cases hemp : (items.map (cssVarLine "decorative-".data)).isEmpty
      · refine ⟨v0 :: v1' :: rest, ?_, by simp⟩
        simp only [decorativeDarkStep, jLookup_jobj, hl, hlen, if_true,
          hitems, Option.bind_eq_bind, Option.some_bind, hemp]
      · refine ⟨v0 :: (replaceAll v1' rootPat
          ('\n' :: joinSep ['\n'] (items.map (cssVarLine "decorative-".data))
            ++ rootPat)) :: rest, ?_, by simp⟩
        simp only [decorativeDarkStep, jLookup_jobj, hl, hlen, if_true,
          hitems, Option.bind_eq_bind, Option.some_bind, hemp,
          Bool.false_eq_true, if_false]
    · refine ⟨vars, ?_, hv⟩
      simp only [decorativeDarkStep, jLookup_jobj, hl, hlen, if_false]

/-- Claim C5, amended: with a light section present (and every present
section a mapping), variable generation succeeds whatever other sections
are present or absent; an absent section simply contributes no
declarations.  Without a light section, a non-empty `scrollbar`,
`decorative_light` or `logo_gradients` section makes generation raise an
IndexError (see the counterexample), so the frozen claim fails. -/
theorem claim_C5 (tms : List (List Char × Json)) (lv : Json)
    (litems : List (List Char × Json))
    (hlight : lookupKV tms "light".data = some lv)
    (hlm : jMembers lv = some litems)
    (hdark : sectionOk tms "dark".data)
    (hscroll : sectionOk tms "scrollbar".data)
    (hdecl : sectionOk tms "decorative_light".data)
    (hdecd : sectionOk tms "decorative_dark".data)
    (hlogo : sectionOk tms "logo_gradients".data) :
    ∃ css, generate_css_variables (jobj tms) = some css := by
  have htr : jTruthy (jobj tms) = true := by
    cases tms with
    | nil => simp [lookupKV] at hlight
    | cons a tl =>
      obtain ⟨k, v⟩ := a
      rfl
  have h1 : lightStep (jobj tms) = some ["        :root \x7b\n".data
      ++ joinSep ['\n'] (litems.map (cssVarLine [])) ++ rootPat] := by
    simp only [lightStep, jLookup_jobj, hlight, hlm, Option.bind_eq_bind,
      Option.some_bind]
  unfold generate_css_variables
  simp only [htr, Bool.not_true, Bool.false_eq_true, if_false, h1,
    Option.bind_eq_bind, Option.some_bind]
  obtain ⟨v2, h2, h2ne⟩ := darkStep_ne tms hdark
    ["        :root \x7b\n".data
      ++ joinSep ['\n'] (litems.map (cssVarLine [])) ++ rootPat] (by simp)
  rw [h2, Option.some_bind]
  obtain ⟨v3, h3, h3ne⟩ := gcvStep_ne tms _ _ hscroll v2 h2ne
  rw [h3, Option.some_bind]
  obtain ⟨v4, h4, h4ne⟩ := gcvStep_ne tms _ _ hdecl v3 h3ne
  rw [h4, Option.some_bind]
  obtain ⟨v5, h5, h5ne⟩ := decorativeDarkStep_ne tms hdecd v4 h4ne
  rw [h5, Option.some_bind]
  obtain ⟨v6, h6, _⟩ := gcvStep_ne tms _ _ hlogo v5 h5ne
  rw [h6, Option.some_bind]
  exact ⟨_, rfl⟩

/-- Witness for claim C5: a theme with a light section and a scrollbar
section generates successfully. -/
theorem claim_C5_witness :
    ∃ css, generate_css_variables (jobj [("light".data, jobj []),
      ("scrollbar".data, jobj [("thumb".data, jstr "#112233")])]) = some css := by
  apply claim_C5 [("light".data, jobj []),
    ("scrollbar".data, jobj [("thumb".data, jstr "#112233")])] (jobj []) [] rfl rfl
  · intro v hv; simp [lookupKV] at hv
  · intro v hv
    have hv2 : v = jobj [("thumb".data, jstr "#112233")] := by
      simp only [lookupKV] at hv
      exact (Option.some.inj (by simpa using hv)).symm
    rw [hv2]
    rfl
  · intro v hv; simp [lookupKV] at hv
  · intro v hv; simp [lookupKV] at hv
  · intro v hv; simp [lookupKV] at hv

/-- Counterexample to claim C5 as frozen: a theme with only a (non-empty)
scrollbar section makes variable generation raise an IndexError — the
embedding does not succeed. -/
theorem claim_C5_counterexample :
    generate_css_variables themeScrollbarOnly = none := by decide

/-- Claim C2: for the worked resume document (basics name `A`, label `B`,
intro text with a quoted fragment and a newline), the SEO Embedder
replaces the page-title token with `A - B` and the description token with
`x &quot;y&quot; z` — double quotes become the quote entity, whitespace
runs collapse to single spaces — and the JSON-LD token with the fixed
comment, in every template. -/
theorem claim_C2 (template : List Char) :
    embed_seo template docC2
      = some (replaceAll
          (replaceAll (replaceAll template pageTitleTok "A - B".data)
            metaTok "x &quot;y&quot; z".data)
          jsonLdTok (generate_json_ld docC2)) := rfl

/-- Claim C8, amended: a missing `basics.name` / `basics.label` renders
as the literal text `None` in the page title (an f-string prints Python
`None`), not as the empty string; with all three keys absent the title is
`None - None` and the description is empty. -/
theorem claim_C8 (template : List Char) (bitems : List (List Char × Json))
    (hn : lookupKV bitems "name".data = none)
    (hl : lookupKV bitems "label".data = none)
    (hi : lookupKV bitems "intro".data = none) :
    embed_seo template (jobj [("basics".data, jobj bitems)])
      = some (replaceAll
          (replaceAll (replaceAll template pageTitleTok "None - None".data)
            metaTok [])
          jsonLdTok (generate_json_ld (jobj [("basics".data, jobj bitems)]))) := by
  simp only [embed_seo, jMembers_jobj, Option.bind_eq_bind, Option.some_bind,
    lookupKV, beq_self_eq_true, if_true, Option.getD_some, hn, hl, hi,
    Option.getD_none]
  rfl

/-- Witness for claim C8: a basics mapping with neither name, label nor
intro yields the `None - None` title. -/
theorem claim_C8_witness :
    embed_seo ['T'] (jobj [("basics".data, jobj [("other".data, jstr "x")])])
      = some (replaceAll
          (replaceAll (replaceAll ['T'] pageTitleTok "None - None".data)
            metaTok [])
          jsonLdTok (generate_json_ld
            (jobj [("basics".data, jobj [("other".data, jstr "x")])]))) :=
  claim_C8 ['T'] [("other".data, jstr "x")] rfl rfl rfl

/-- Counterexample to claim C8 as frozen: with `basics` present but empty,
the page-title token resolves to `None - None`, not to the empty-string
form ` - ` the claim asserts. -/
theorem claim_C8_counterexample :
    embed_seo pageTitleTok docBasicsEmpty = some "None - None".data
      ∧ "None - None".data ≠ " - ".data := by
  constructor
  · decide
  · decide

/-- Claim C10, amended: the SEO Embedder does not fail when the `basics`
key is absent: the title renders as `None - None`, the description as the
empty string, and the JSON-LD token is replaced by the fixed comment.  It
is not total over every resume mapping: binding `basics` to a non-mapping
raises (see the counterexample). -/
theorem claim_C10 (template : List Char) (dms : List (List Char × Json))
    (hb : lookupKV dms "basics".data = none) :
    embed_seo template (jobj dms)
      = some (replaceAll
          (replaceAll (replaceAll template pageTitleTok "None - None".data)
            metaTok [])
          jsonLdTok (generate_json_ld (jobj dms))) := by
  simp only [embed_seo, jMembers_jobj, Option.bind_eq_bind, Option.some_bind,
    hb, Option.getD_none]
  rfl

/-- Witness for claim C10: the empty resume mapping flows through the SEO
Embedder without failure. -/
theorem claim_C10_witness :
    embed_seo ['x'] (jobj [])
      = some (replaceAll
          (replaceAll (replaceAll ['x'] pageTitleTok "None - None".data)
            metaTok [])
          jsonLdTok (generate_json_ld (jobj []))) :=
  claim_C10 ['x'] [] rfl

/-- Counterexample to claim C10 as frozen: with `basics` bound to a plain
string the SEO Embedder raises (`.get` on a non-mapping) and produces no
output, so it is not total over every resume mapping and the JSON-LD
token is not replaced. -/
theorem claim_C10_counterexample : embed_seo jsonLdTok docBasicsStr = none := by
  decide

theorem stripLit_some_le (lit cs r : List Char) (h : stripLit lit cs = some r) :
    r.length + lit.length ≤ cs.length := by
  unfold stripLit at h
  by_cases hs : startsB lit cs = true
  · simp only [hs, if_true, Option.some.injEq] at h
    have := startsB_length_le lit cs hs
    subst h
    simp only [List.length_drop]
    omega
  · rw [Bool.not_eq_true] at hs
    simp [hs] at h

theorem dropReWs_le (cs : List Char) : (dropReWs cs).length ≤ cs.length := by
  induction cs with
  | nil => simp [dropReWs]
  | cons c cs ih =>
    unfold dropReWs
    by_cases hc : isPyWs c = true
    · simp only [hc, if_true]
      exact Nat.le_trans ih (by simp)
    · rw [Bool.not_eq_true] at hc
      simp [hc]

theorem spanNonBrace_le (cs : List Char) :
    (spanNonBrace cs).2.length ≤ cs.length := by
  induction cs with
  | nil => simp [spanNonBrace]
  | cons c cs ih =>
    unfold spanNonBrace
    by_cases hc : c = '\x7d'
    · simp [hc]
    · simp only [hc, if_false]
      exact Nat.le_trans ih (by simp)

theorem matchRegion_lt (cs rest : List Char) (h : matchRegion cs = some rest) :
    rest.length < cs.length := by
  unfold matchRegion at h
  rcases h1 : stripLit ":root".data cs with _ | r1 <;> rw [h1] at h
  · simp at h
  simp only [Option.bind_eq_bind, Option.some_bind] at h
  rcases h3 : stripLit ['\x7b'] (dropReWs r1) with _ | r3 <;> rw [h3] at h
  · simp at h
  simp only [Option.bind_eq_bind, Option.some_bind] at h
  by_cases he1 : (spanNonBrace r3).1.isEmpty
  · simp [he1] at h
  · simp only [he1, Bool.false_eq_true, if_false] at h
    rcases h5 : stripLit ['\x7d'] (spanNonBrace r3).2 with _ | r5 <;> rw [h5] at h
    · simp at h
    simp only [Option.bind_eq_bind, Option.some_bind] at h
    rcases h7 : stripLit ".dark".data (dropReWs r5) with _ | r7 <;> rw [h7] at h
    · simp at h
    simp only [Option.bind_eq_bind, Option.some_bind] at h
    rcases h9 : stripLit ['\x7b'] (dropReWs r7) with _ | r9 <;> rw [h9] at h
    · simp at h
    simp only [Option.bind_eq_bind, Option.some_bind] at h
    by_cases he2 : (spanNonBrace r9).1.isEmpty
    · simp [he2] at h
    · simp only [he2, Bool.false_eq_true, if_false] at h
      have l1 := stripLit_some_le _ _ _ h1
      have l3 := stripLit_some_le _ _ _ h3
      have l5 := stripLit_some_le _ _ _ h5
      have l7 := stripLit_some_le _ _ _ h7
      have l9 := stripLit_some_le _ _ _ h9
      have lR := stripLit_some_le _ _ _ h
      have d1 := dropReWs_le r1
      have d5 := dropReWs_le r5
      have d7 := dropReWs_le r7
      have s3 := spanNonBrace_le r3
      have s9 := spanNonBrace_le r9
      simp only [List.length_cons, List.length_nil] at l1 l3 l5 l7 l9 lR
      omega

theorem subAllF_fuelI (rep : List RepItem) :
    ∀ f s, s.length ≤ f → subAllF rep f s = subAllF rep s.length s := by
  intro f
  induction f using Nat.strong_induction_on with
  | _ f ih =>
    intro s hs
    match f, s with
    | 0, s =>
      have : s = [] := by cases s <;> simp_all
      subst this
      rfl
    | f + 1, [] => rfl
    | f + 1, c :: cs =>
      simp only [subAllF, List.length_cons]
      have hcs : cs.length ≤ f := by simpa using hs
      rcases hm : matchRegion (c :: cs) with _ | rest
      · dsimp only
        rw [ih f (by omega) cs hcs]
      · have hlt := matchRegion_lt _ _ hm
        simp only [List.length_cons] at hlt
        dsimp only
        rw [ih f (by omega) rest (by omega), ih cs.length (by omega) rest (by omega)]

theorem subAll_cons_match (c : Char) (cs rest : List Char)
    (rep : List RepItem) (h : matchRegion (c :: cs) = some rest) :
    subAll (c :: cs) rep
      = expandT rep ((c :: cs).take ((c :: cs).length - rest.length))
        ++ subAll rest rep := by
  show subAllF rep (c :: cs).length (c :: cs) = _
  simp only [List.length_cons, subAllF, h]
  congr 1
  have hlt := matchRegion_lt _ _ h
  simp only [List.length_cons] at hlt
  rw [subAllF_fuelI rep cs.length rest (by omega)]
  rfl

theorem subAll_cons_nomatch (c : Char) (cs : List Char)
    (rep : List RepItem) (h : matchRegion (c :: cs) = none) :
    subAll (c :: cs) rep = c :: subAll cs rep := by
  show subAllF rep (c :: cs).length (c :: cs) = _
  simp only [List.length_cons, subAllF, h]
  rfl

theorem matchRegion_concrete (z : List Char) :
    matchRegion (regionS ++ z) = some z := rfl

theorem matchRegion_none_of_head (c : Char) (cs : List Char) (h : ¬ c = ':') :
    matchRegion (c :: cs) = none := by
  have hb : startsB ":root".data (c :: cs) = false := by
    simp only [startsB, Bool.and_eq_false_iff]
    left
    simp only [beq_eq_false_iff_ne, ne_eq]
    exact fun hh => h hh.symm
  simp [matchRegion, stripLit, hb]

theorem subAll_skip_mid (rep : List RepItem) :
    ∀ mid, ':' ∉ mid →
      subAll (mid ++ regionS) rep = mid ++ subAll regionS rep := by
  intro mid
  induction mid with
  | nil => intro _; rfl
  | cons m mid ih =>
    intro hm
    have hmc : ¬ m = ':' := by
      intro hh; exact hm (by rw [hh]; exact List.mem_cons_self _ _)
    have hrest : ':' ∉ mid := fun hh => hm (List.mem_cons_of_mem _ hh)
    rw [List.cons_append,
      subAll_cons_nomatch _ _ _ (matchRegion_none_of_head m _ hmc), ih hrest]
    simp

theorem subAll_regionS (rep : List RepItem) :
    subAll regionS rep = expandT rep regionS := by
  have h0 : matchRegion regionS = some [] := by
    have := matchRegion_concrete []
    rwa [List.append_nil] at this
  have he : regionS = ':' :: "root \x7ba\x7d .dark \x7bb\x7d".data := rfl
  rw [he] at h0 ⊢
  rw [subAll_cons_match _ _ _ _ h0]
  have h1 : subAll [] rep = [] := rfl
  rw [h1, List.append_nil]
  congr 1

/-- Claim C3, amended: the regex splice replaces not only the first
occurrence of a root-plus-dark declaration region but every
non-overlapping occurrence (`re.sub` substitutes all matches): for a
template made of two such regions around any separator that cannot start
a match, both regions are rewritten to the generated block. -/
theorem claim_C3 (mid : List Char) (hmid : ':' ∉ mid) :
    embed_theme (regionS ++ (mid ++ regionS)) themeLightOnly
      = some (cssLightOnly ++ (mid ++ cssLightOnly)) := by
  have hsearch : regexSearchB (regionS ++ (mid ++ regionS)) = true := by
    have : regionS ++ (mid ++ regionS)
        = ':' :: ("root \x7ba\x7d .dark \x7bb\x7d".data ++ (mid ++ regionS)) := rfl
    rw [this, regexSearchB, ← this, matchRegion_concrete]
    rfl
  have hparse : parseTmpl cssLightOnly
      = some (cssLightOnly.map RepItem.lit) := rfl
  have hmain : subAll (regionS ++ (mid ++ regionS))
        (cssLightOnly.map RepItem.lit)
      = cssLightOnly ++ (mid ++ cssLightOnly) := by
    have h1 : regionS ++ (mid ++ regionS)
        = ':' :: ("root \x7ba\x7d .dark \x7bb\x7d".data ++ (mid ++ regionS)) := rfl
    rw [h1, subAll_cons_match _ _ _ _ (by rw [← h1]; exact matchRegion_concrete _),
      subAll_skip_mid _ mid hmid, subAll_regionS, expandT_lits, expandT_lits]
  have hstep : embed_theme (regionS ++ (mid ++ regionS)) themeLightOnly
      = (if regexSearchB (regionS ++ (mid ++ regionS)) then
            (parseTmpl cssLightOnly).map fun rep =>
              subAll (regionS ++ (mid ++ regionS)) rep
          else some (regionS ++ (mid ++ regionS))).bind
        (fun t1 => some t1) := rfl
  rw [hstep]
  simp only [hsearch, if_true, hparse, Option.map_some', Option.bind_eq_bind,
    Option.some_bind, hmain]

/-- Witness for claim C3: the amended statement at the concrete
separator "XY". -/
theorem claim_C3_witness :
    embed_theme (regionS ++ ("XY".data ++ regionS)) themeLightOnly
      = some (cssLightOnly ++ ("XY".data ++ cssLightOnly)) :=
  claim_C3 "XY".data (by decide)

/-- Counterexample to claim C3 as stated: on a template holding two
root-plus-dark regions, `embed_theme` rewrites both of them, so the
output differs from the one with only the first region replaced. -/
theorem claim_C3_counterexample :
    embed_theme (regionS ++ ("XY".data ++ regionS)) themeLightOnly
        = some (cssLightOnly ++ ("XY".data ++ cssLightOnly)) ∧
      cssLightOnly ++ ("XY".data ++ cssLightOnly)
        ≠ cssLightOnly ++ ("XY".data ++ regionS) :=
  ⟨rfl, by decide⟩

theorem startsB_cons_ne (p c : Char) (ps cs : List Char) (h : p ≠ c) :
    startsB (p :: ps) (c :: cs) = false := by
  simp only [startsB, Bool.and_eq_false_iff]
  exact Or.inl (beq_eq_false_iff_ne.mpr h)

theorem natReprGo_append (n : Nat) : ∀ acc,
    natReprGo n acc = natReprGo n [] ++ acc := by
  induction n using Nat.strong_induction_on with
  | _ n ih =>
    intro acc
    rcases Nat.lt_or_ge n 10 with h | h
    · have e1 : natReprGo n acc = digCh n :: acc := by
        rw [natReprGo.eq_def, dif_pos h]
      have e2 : natReprGo n [] = [digCh n] := by
        rw [natReprGo.eq_def, dif_pos h]
      rw [e1, e2]
      rfl
    · have h10 : ¬ n < 10 := by omega
      have e1 : ∀ a : List Char,
          natReprGo n a = natReprGo (n / 10) (digCh (n % 10) :: a) := by
        intro a
        rw [natReprGo.eq_def, dif_neg h10]
      have hlt : n / 10 < n := Nat.div_lt_self (by omega) (by omega)
      rw [e1 acc, e1 [], ih _ hlt (digCh (n % 10) :: acc),
        ih _ hlt [digCh (n % 10)]]
      simp

theorem digCh_digit (k : Nat) (h : k < 10) : isDigitCh (digCh k) = true := by
  interval_cases k <;> decide

theorem digCh_toNat (k : Nat) (h : k < 10) : (digCh k).toNat = 48 + k := by
  interval_cases k <;> decide

theorem natRepr_digits (n : Nat) : ∀ c ∈ natRepr n, isDigitCh c = true := by
  induction n using Nat.strong_induction_on with
  | _ n ih =>
    intro c hc
    rcases Nat.lt_or_ge n 10 with h | h
    · have e2 : natRepr n = [digCh n] := by
        show natReprGo n [] = _
        rw [natReprGo.eq_def, dif_pos h]
      rw [e2] at hc
      simp at hc
      rw [hc]
      exact digCh_digit n h
    · have e1 : natRepr n = natRepr (n / 10) ++ [digCh (n % 10)] := by
        show natReprGo n [] = _
        rw [natReprGo.eq_def, dif_neg (by omega : ¬ n < 10),
          natReprGo_append]
        rfl
      rw [e1] at hc
      rcases List.mem_append.mp hc with hc | hc
      · exact ih _ (Nat.div_lt_self (by omega) (by omega)) c hc
      · simp at hc
        rw [hc]
        exact digCh_digit _ (Nat.mod_lt _ (by omega))

theorem natRepr_ne_nil (n : Nat) : natRepr n ≠ [] := by
  rcases Nat.lt_or_ge n 10 with h | h
  · show natReprGo n [] ≠ []
    rw [natReprGo.eq_def, dif_pos h]
    simp
  · show natReprGo n [] ≠ []
    rw [natReprGo.eq_def, dif_neg (by omega : ¬ n < 10), natReprGo_append]
    simp

theorem digitsVal_append_one (xs : List Char) (c : Char) :
    digitsVal (xs ++ [c]) = 10 * digitsVal xs + (c.toNat - 48) := by
  simp [digitsVal, List.foldl_append]

theorem digitsVal_natRepr (n : Nat) : digitsVal (natRepr n) = n := by
  induction n using Nat.strong_induction_on with
  | _ n ih =>
    rcases Nat.lt_or_ge n 10 with h | h
    · have e2 : natRepr n = [digCh n] := by
        show natReprGo n [] = _
        rw [natReprGo.eq_def, dif_pos h]
      rw [e2]
      have := digCh_toNat n h
      simp [digitsVal, this]
    · have e1 : natRepr n = natRepr (n / 10) ++ [digCh (n % 10)] := by
        show natReprGo n [] = _
        rw [natReprGo.eq_def, dif_neg (by omega : ¬ n < 10), natReprGo_append]
        rfl
      rw [e1, digitsVal_append_one,
        ih _ (Nat.div_lt_self (by omega) (by omega)),
        digCh_toNat _ (Nat.mod_lt _ (by omega))]
      omega

theorem spanDigits_exact (ds : List Char) (hds : ∀ c ∈ ds, isDigitCh c = true)
    (rest : List Char) (hr : restOK rest) :
    spanDigits (ds ++ rest) = (ds, rest) := by
  induction ds with
  | nil =>
    cases rest with
    | nil => rfl
    | cons c r =>
      have hc : isDigitCh c = false := hr c rfl
      simp [spanDigits, hc]
  | cons c cs ih =>
    have hc : isDigitCh c = true := hds c (by simp)
    simp [spanDigits, hc, ih fun x hx => hds x (List.mem_cons_of_mem _ hx)]

theorem natRepr_cons (n : Nat) : ∃ c t, natRepr n = c :: t
    ∧ isDigitCh c = true ∧ ∀ x ∈ t, isDigitCh x = true := by
  cases hnr : natRepr n with
  | nil => exact absurd hnr (natRepr_ne_nil n)
  | cons c t =>
    refine ⟨c, t, rfl, natRepr_digits n c (by rw [hnr]; simp), ?_⟩
    intro x hx
    exact natRepr_digits n x (by rw [hnr]; exact List.mem_cons_of_mem _ hx)

theorem parseNum_intRepr (n : Int) (rest : List Char) (hr : restOK rest) :
    parseNum (intRepr n ++ rest) = some (n, rest) := by
  obtain ⟨c, t, hct, hc, ht⟩ := natRepr_cons n.natAbs
  have hspan : spanDigits (natRepr n.natAbs ++ rest) = (natRepr n.natAbs, rest) :=
    spanDigits_exact _ (natRepr_digits _) rest hr
  by_cases hneg : n < 0
  · have e : intRepr n = '-' :: natRepr n.natAbs := by simp [intRepr, hneg]
    rw [e, List.cons_append]
    show (if '-' = '-' then
        match spanDigits (natRepr n.natAbs ++ rest) with
        | ([], _) => none
        | (ds, rest2) => some (-(digitsVal ds : Int), rest2)
      else
        match spanDigits ('-' :: (natRepr n.natAbs ++ rest)) with
        | ([], _) => none
        | (ds, rest2) => some ((digitsVal ds : Int), rest2)) = some (n, rest)
    rw [if_pos rfl, hspan, hct]
    show some (-(digitsVal (c :: t) : Int), rest) = some (n, rest)
    rw [← hct, digitsVal_natRepr]
    simp only [Option.some.injEq, Prod.mk.injEq]
    exact ⟨by omega, trivial⟩
  · have hcm : c ≠ '-' := by
      intro hEq
      rw [hEq] at hc
      exact absurd hc (by decide)
    have e : intRepr n = natRepr n.natAbs := by simp [intRepr, hneg]
    rw [e, hct, List.cons_append]
    show (if c = '-' then
        match spanDigits (t ++ rest) with
        | ([], _) => none
        | (ds, rest2) => some (-(digitsVal ds : Int), rest2)
      else
        match spanDigits (c :: (t ++ rest)) with
        | ([], _) => none
        | (ds, rest2) => some ((digitsVal ds : Int), rest2)) = some (n, rest)
    rw [if_neg hcm, ← List.cons_append, ← hct, hspan, hct]
    show some ((digitsVal (c :: t) : Int), rest) = some (n, rest)
    rw [← hct, digitsVal_natRepr]
    simp only [Option.some.injEq, Prod.mk.injEq]
    exact ⟨by omega, trivial⟩

theorem hexVal_hexDig (k : Nat) (h : k < 16) : hexVal (hexDig k) = some k := by
  interval_cases k <;> decide


theorem parseStrBody_quote (r : List Char) :
    parseStrBody ('"' :: r) = some ([], r) := by
  rw [parseStrBody.eq_def]
  simp

theorem parseStrBody_twoEsc (e ec : Char) (x : List Char)
    (he : e ≠ 'u') (hu : unescCh e = some ec) :
    parseStrBody ('\\' :: e :: x)
      = (parseStrBody x).map fun p => (ec :: p.1, p.2) := by
  rw [parseStrBody.eq_def]
  simp [he, hu]

theorem parseStrBody_uEsc (hi lo : Nat) (hhi : hi < 16) (hlo : lo < 16)
    (x : List Char) :
    parseStrBody ('\\' :: 'u' :: '0' :: '0' :: hexDig hi :: hexDig lo :: x)
      = (parseStrBody x).map fun p => (Char.ofNat (hi * 16 + lo) :: p.1, p.2) := by
  have h0 : hexVal '0' = some 0 := by decide
  rw [parseStrBody.eq_def]
  simp only [reduceCtorEq, reduceIte, h0, hexVal_hexDig _ hhi,
    hexVal_hexDig _ hlo, Option.bind_eq_bind, Option.some_bind]
  rw [if_pos (by omega : ((0 * 16 + 0) * 16 + hi) * 16 + lo < 0xd800)]
  have he : ((0 * 16 + 0) * 16 + hi) * 16 + lo = hi * 16 + lo := by omega
  rw [he, if_neg (by decide : ¬ ('\\' = '"'))]

theorem parseStrBody_plain (c : Char) (x : List Char)
    (h1 : ¬ c = '\\') (h2 : ¬ c = '"') (h8 : ¬ c.toNat < 0x20) :
    parseStrBody (c :: x)
      = (parseStrBody x).map fun p => (c :: p.1, p.2) := by
  rw [parseStrBody.eq_def]
  simp only [if_neg h2, if_neg h1, if_neg h8]

theorem parseStrBody_escList (s : List Char) : ∀ r,
    parseStrBody (escList s ++ '"' :: r) = some (s, r) := by
  induction s with
  | nil =>
    intro r
    exact parseStrBody_quote r
  | cons c cs ih =>
    intro r
    show parseStrBody ((escChar c ++ escList cs) ++ '"' :: r) = _
    rw [List.append_assoc]
    by_cases h1 : c = '\\'
    · subst h1
      rw [show escChar '\\' = ['\\', '\\'] from rfl, List.cons_append,
        List.cons_append, List.nil_append,
        parseStrBody_twoEsc '\\' '\\' _ (by decide) (by decide), ih r]
      rfl
    by_cases h2 : c = '"'
    · subst h2
      rw [show escChar '"' = ['\\', '"'] from rfl, List.cons_append,
        List.cons_append, List.nil_append,
        parseStrBody_twoEsc '"' '"' _ (by decide) (by decide), ih r]
      rfl
    by_cases h3 : c = '\x08'
    · subst h3
      rw [show escChar '\x08' = ['\\', 'b'] from rfl, List.cons_append,
        List.cons_append, List.nil_append,
        parseStrBody_twoEsc 'b' '\x08' _ (by decide) (by decide), ih r]
      rfl
    by_cases h4 : c = '\x0c'
    · subst h4
      rw [show escChar '\x0c' = ['\\', 'f'] from rfl, List.cons_append,
        List.cons_append, List.nil_append,
        parseStrBody_twoEsc 'f' '\x0c' _ (by decide) (by decide), ih r]
      rfl
    by_cases h5 : c = '\n'
    · subst h5
      rw [show escChar '\n' = ['\\', 'n'] from rfl, List.cons_append,
        List.cons_append, List.nil_append,
        parseStrBody_twoEsc 'n' '\n' _ (by decide) (by decide), ih r]
      rfl
    by_cases h6 : c = '\r'
    · subst h6
      rw [show escChar '\r' = ['\\', 'r'] from rfl, List.cons_append,
        List.cons_append, List.nil_append,
        parseStrBody_twoEsc 'r' '\r' _ (by decide) (by decide), ih r]
      rfl
    by_cases h7 : c = '\t'
    · subst h7
      rw [show escChar '\t' = ['\\', 't'] from rfl, List.cons_append,
        List.cons_append, List.nil_append,
        parseStrBody_twoEsc 't' '\t' _ (by decide) (by decide), ih r]
      rfl
    by_cases h8 : c.toNat < 0x20
    · have e : escChar c
          = ['\\', 'u', '0', '0', hexDig (c.toNat / 16), hexDig (c.toNat % 16)] := by
        rw [escChar, if_neg h1, if_neg h2, if_neg h3, if_neg h4, if_neg h5,
          if_neg h6, if_neg h7, if_pos h8]
      rw [e]
      simp only [List.cons_append, List.nil_append]
      rw [parseStrBody_uEsc _ _ (by omega) (by omega), ih r]
      have hc2 : c.toNat / 16 * 16 + c.toNat % 16 = c.toNat := by omega
      simp [hc2, Char.ofNat_toNat]
    · have e : escChar c = [c] := by
        rw [escChar, if_neg h1, if_neg h2, if_neg h3, if_neg h4, if_neg h5,
          if_neg h6, if_neg h7, if_neg h8]
      rw [e]
      simp only [List.cons_append, List.nil_append]
      rw [parseStrBody_plain c _ h1 h2 h8, ih r]
      rfl

theorem skipWs_ws_append (w : List Char) (hw : wsOnly w) (s : List Char) :
    skipWs (w ++ s) = skipWs s := by
  induction w with
  | nil => rfl
  | cons c cs ih =>
    have hc : isJsWs c = true := hw c (by simp)
    simp [skipWs, hc, ih fun x hx => hw x (List.mem_cons_of_mem _ hx)]

theorem skipWs_cons_nonws (c : Char) (s : List Char) (h : isJsWs c = false) :
    skipWs (c :: s) = c :: s := by
  simp [skipWs, h]

theorem wsOnly_nil : wsOnly [] := fun c hc => absurd hc (List.not_mem_nil c)

theorem wsOnly_ind (d : Nat) : wsOnly (ind d) := by
  intro c hc
  have : c = ' ' := List.eq_of_mem_replicate hc
  rw [this]
  decide

theorem wsOnly_nl_ind (d : Nat) : wsOnly ('\n' :: ind d) := by
  intro c hc
  rcases List.mem_cons.mp hc with rfl | hc
  · decide
  · exact wsOnly_ind d c hc

theorem digit_not_ws (c : Char) (hc : isDigitCh c = true) :
    isJsWs c = false ∧ c ≠ ']' ∧ c ≠ '\x7d' := by
  have hb : 48 ≤ c.toNat ∧ c.toNat ≤ 57 := by simpa [isDigitCh] using hc
  refine ⟨?_, ?_, ?_⟩
  · have h1 : c ≠ ' ' := fun e => by subst e; exact absurd hb (by decide)
    have h2 : c ≠ '\t' := fun e => by subst e; exact absurd hb (by decide)
    have h3 : c ≠ '\n' := fun e => by subst e; exact absurd hb (by decide)
    have h4 : c ≠ '\r' := fun e => by subst e; exact absurd hb (by decide)
    simp [isJsWs, h1, h2, h3, h4]
  · exact fun e => by subst e; exact absurd hb (by decide)
  · exact fun e => by subst e; exact absurd hb (by decide)

theorem serVal_head (d : Nat) (v : Json) : ∃ c t, serVal d v = c :: t
    ∧ isJsWs c = false ∧ c ≠ ']' ∧ c ≠ '\x7d' := by
  cases v with
  | num n =>
    by_cases hn : n < 0
    · refine ⟨'-', natRepr n.natAbs, ?_, by decide⟩
      show intRepr n = _
      simp [intRepr, hn]
    · obtain ⟨c, t, hct, hc, _⟩ := natRepr_cons n.natAbs
      obtain ⟨p1, p2, p3⟩ := digit_not_ws c hc
      refine ⟨c, t, ?_, p1, p2, p3⟩
      show intRepr n = _
      simp [intRepr, hn, hct]
  | bool b => cases b <;> exact ⟨_, _, rfl, by decide⟩
  | arr xs => cases xs <;> exact ⟨'[', _, rfl, by decide⟩
  | obj ms => cases ms <;> exact ⟨'\x7b', _, rfl, by decide⟩
  | null => exact ⟨'n', _, rfl, by decide⟩
  | str s => exact ⟨'"', _, rfl, by decide⟩

theorem restOK_nil : restOK [] := fun c h => by cases h

theorem restOK_cons (c : Char) (r : List Char) (h : isDigitCh c = false) :
    restOK (c :: r) := by
  intro c' h'
  have : c' = c := by simpa using h'.symm
  rw [this]
  exact h

theorem restOK_serTail (d : Nat) (xs : JArr) (z : List Char) :
    restOK (serTail d xs ++ '\n' :: z) := by
  cases xs with
  | nil => exact restOK_cons _ _ (by decide)
  | cons y ys => exact restOK_cons _ _ (by decide)

theorem restOK_serOTail (d : Nat) (ms : JObj) (z : List Char) :
    restOK (serOTail d ms ++ '\n' :: z) := by
  cases ms with
  | nil => exact restOK_cons _ _ (by decide)
  | cons k v tl => exact restOK_cons _ _ (by decide)

theorem szBound : ∀ n : Nat,
    (∀ j : Json, sizeOf j ≤ n → ∀ d, jsizeV j ≤ (serVal d j).length + 1)
    ∧ (∀ xs : JArr, sizeOf xs ≤ n → ∀ d, jsizeL xs ≤ (serTail d xs).length + 1)
    ∧ (∀ ms : JObj, sizeOf ms ≤ n → ∀ d, jsizeO ms ≤ (serOTail d ms).length + 1) := by
  intro n
  induction n using Nat.strong_induction_on with
  | _ n ih =>
    refine ⟨?_, ?_, ?_⟩
    · intro j hj d
      cases j with
      | null => simp [jsizeV]
      | bool b => cases b <;> simp [jsizeV]
      | num m => simp [jsizeV]
      | str s => simp [jsizeV]
      | arr xs =>
        cases xs with
        | nil => simp [jsizeV, jsizeL, serVal]
        | cons x tl =>
          have hxn : sizeOf x < n := by
            have h1 : sizeOf x < sizeOf (Json.arr (JArr.cons x tl)) := by
              simp only [Json.arr.sizeOf_spec, JArr.cons.sizeOf_spec]
              omega
            omega
          have htn : sizeOf tl < n := by
            have h1 : sizeOf tl < sizeOf (Json.arr (JArr.cons x tl)) := by
              simp only [Json.arr.sizeOf_spec, JArr.cons.sizeOf_spec]
              omega
            omega
          have hx := (ih (sizeOf x) hxn).1 x le_rfl (d + 1)
          have htl := (ih (sizeOf tl) htn).2.1 tl le_rfl (d + 1)
          simp only [jsizeV, jsizeL, serVal, List.length_append,
            List.length_cons] at hx htl ⊢
          omega
      | obj ms =>
        cases ms with
        | nil => simp [jsizeV, jsizeO, serVal]
        | cons k v tl =>
          have hvn : sizeOf v < n := by
            have h1 : sizeOf v < sizeOf (Json.obj (JObj.cons k v tl)) := by
              simp only [Json.obj.sizeOf_spec, JObj.cons.sizeOf_spec]
              omega
            omega
          have htn : sizeOf tl < n := by
            have h1 : sizeOf tl < sizeOf (Json.obj (JObj.cons k v tl)) := by
              simp only [Json.obj.sizeOf_spec, JObj.cons.sizeOf_spec]
              omega
            omega
          have hv := (ih (sizeOf v) hvn).1 v le_rfl (d + 1)
          have htl := (ih (sizeOf tl) htn).2.2 tl le_rfl (d + 1)
          simp only [jsizeV, jsizeO, serVal, List.length_append,
            List.length_cons] at hv htl ⊢
          omega
    · intro xs hxs d
      cases xs with
      | nil => simp [jsizeL, serTail]
      | cons y ys =>
        have hyn : sizeOf y < n := by
          have h1 : sizeOf y < sizeOf (JArr.cons y ys) := by
            simp only [JArr.cons.sizeOf_spec]
            omega
          omega
        have hsn : sizeOf ys < n := by
          have h1 : sizeOf ys < sizeOf (JArr.cons y ys) := by
            simp only [JArr.cons.sizeOf_spec]
            omega
          omega
        have hy := (ih (sizeOf y) hyn).1 y le_rfl d
        have hys := (ih (sizeOf ys) hsn).2.1 ys le_rfl d
        simp only [jsizeV, jsizeL, serTail, List.length_append,
          List.length_cons] at hy hys ⊢
        omega
    · intro ms hms d
      cases ms with
      | nil => simp [jsizeO, serOTail]
      | cons k v tl =>
        have hvn : sizeOf v < n := by
          have h1 : sizeOf v < sizeOf (JObj.cons k v tl) := by
            simp only [JObj.cons.sizeOf_spec]
            omega
          omega
        have htn : sizeOf tl < n := by
          have h1 : sizeOf tl < sizeOf (JObj.cons k v tl) := by
            simp only [JObj.cons.sizeOf_spec]
            omega
          omega
        have hv := (ih (sizeOf v) hvn).1 v le_rfl d
        have htl := (ih (sizeOf tl) htn).2.2 tl le_rfl d
        simp only [jsizeV, jsizeO, serOTail, List.length_append,
          List.length_cons] at hv htl ⊢
        omega

theorem jsizeV_pos (v : Json) : 1 ≤ jsizeV v := by
  cases v <;> simp [jsizeV]

theorem jsizeL_pos (xs : JArr) : 1 ≤ jsizeL xs := by
  cases xs with
  | nil => simp [jsizeL]
  | cons x tl => simp only [jsizeL]; omega

theorem jsizeO_pos (ms : JObj) : 1 ≤ jsizeO ms := by
  cases ms with
  | nil => simp [jsizeO]
  | cons k v tl => simp only [jsizeO]; omega

theorem wsOnly_sp : wsOnly [' '] := by
  intro c hc
  have : c = ' ' := by simpa using hc
  rw [this]
  decide

theorem parseVal_skipWs (f : Nat) (a b : List Char) (h : skipWs a = skipWs b) :
    parseVal (f + 1) a = parseVal (f + 1) b := by
  simp only [parseVal, h]

theorem parseVal_succ_nonkw (f : Nat) (c : Char) (t : List Char)
    (hws : isJsWs c = false)
    (hn : c ≠ 'n') (ht : c ≠ 't') (hf : c ≠ 'f') :
    parseVal (f + 1) (c :: t)
      = (if c = '"' then (parseStrBody t).map fun p => (Json.str p.1, p.2)
        else if c = '[' then
          match skipWs t with
          | [] => none
          | c2 :: r2 =>
            if c2 = ']' then some (Json.arr JArr.nil, r2)
            else (parseElems f (c2 :: r2)).map fun p => (Json.arr p.1, p.2)
        else if c = '\x7b' then
          match skipWs t with
          | [] => none
          | c2 :: r2 =>
            if c2 = '\x7d' then some (Json.obj JObj.nil, r2)
            else (parseMembers f (c2 :: r2)).map fun p => (Json.obj p.1, p.2)
        else if isDigitCh c || c = '-' then
          (parseNum (c :: t)).map fun p => (Json.num p.1, p.2)
        else none) := by
  simp only [parseVal]
  rw [skipWs_cons_nonws _ _ hws]
  have h1 : startsB "null".data (c :: t) = false := by
    rw [show "null".data = 'n' :: "ull".data from rfl]
    exact startsB_cons_ne _ _ _ _ (fun e => hn e.symm)
  have h2 : startsB "true".data (c :: t) = false := by
    rw [show "true".data = 't' :: "rue".data from rfl]
    exact startsB_cons_ne _ _ _ _ (fun e => ht e.symm)
  have h3 : startsB "false".data (c :: t) = false := by
    rw [show "false".data = 'f' :: "alse".data from rfl]
    exact startsB_cons_ne _ _ _ _ (fun e => hf e.symm)
  simp only [h1, h2, h3, Bool.false_eq_true, if_false]

theorem serParse : ∀ f : Nat,
    (∀ v : Json, jsizeV v ≤ f → ∀ d w rest, wsOnly w → restOK rest →
      parseVal f (w ++ (serVal d v ++ rest)) = some (v, rest))
    ∧ (∀ (x : Json) (xs : JArr), jsizeL (JArr.cons x xs) ≤ f →
        ∀ d w rest, wsOnly w → restOK rest →
        parseElems f (w ++ (serVal (d + 1) x ++ (serTail (d + 1) xs
            ++ ('\n' :: (ind d ++ (']' :: rest))))))
          = some (JArr.cons x xs, rest))
    ∧ (∀ (k : List Char) (v : Json) (ms : JObj), jsizeO (JObj.cons k v ms) ≤ f →
        ∀ d w rest, wsOnly w → restOK rest →
        parseMembers f (w ++ (serStr k ++ (':' :: ' ' :: (serVal (d + 1) v
            ++ (serOTail (d + 1) ms ++ ('\n' :: (ind d ++ ('\x7d' :: rest))))))))
          = some (JObj.cons k v ms, rest)) := by
  intro f
  induction f using Nat.strong_induction_on with
  | _ f ih =>
    refine ⟨?_, ?_, ?_⟩
    · intro v hv d w rest hw hr
      obtain ⟨f', rfl⟩ : ∃ f', f = f' + 1 := by
        have := jsizeV_pos v
        cases f with
        | zero => omega
        | succ f2 => exact ⟨f2, rfl⟩
      rw [parseVal_skipWs f' _ _ (skipWs_ws_append w hw _)]
      cases v with
      | null =>
        have e0 : serVal d Json.null ++ rest = 'n' :: ("ull".data ++ rest) := rfl
        have hsk : skipWs (serVal d Json.null ++ rest)
            = serVal d Json.null ++ rest := by
          rw [e0]
          exact skipWs_cons_nonws _ _ (by decide)
        have h1 : startsB "null".data (serVal d Json.null ++ rest) = true :=
          startsB_refl_append _ _
        have h2 : (serVal d Json.null ++ rest).drop 4 = rest := by
          show ("null".data ++ rest).drop 4 = rest
          rw [show (4 : Nat) = ("null".data).length from rfl]
          exact List.drop_left _ _
        simp [parseVal, hsk, h1, h2]
      | bool b =>
        cases b with
        | true =>
          have e0 : serVal d (Json.bool true) ++ rest
              = 't' :: ("rue".data ++ rest) := rfl
          have hsk : skipWs (serVal d (Json.bool true) ++ rest)
              = serVal d (Json.bool true) ++ rest := by
            rw [e0]
            exact skipWs_cons_nonws _ _ (by decide)
          have h0 : startsB "null".data (serVal d (Json.bool true) ++ rest)
              = false := by
            rw [e0, show "null".data = 'n' :: "ull".data from rfl]
            exact startsB_cons_ne _ _ _ _ (by decide)
          have h1 : startsB "true".data (serVal d (Json.bool true) ++ rest)
              = true := startsB_refl_append _ _
          have h2 : (serVal d (Json.bool true) ++ rest).drop 4 = rest := by
            show ("true".data ++ rest).drop 4 = rest
            rw [show (4 : Nat) = ("true".data).length from rfl]
            exact List.drop_left _ _
          simp [parseVal, hsk, h0, h1, h2]
        | false =>
          have e0 : serVal d (Json.bool false) ++ rest
              = 'f' :: ("alse".data ++ rest) := rfl
          have hsk : skipWs (serVal d (Json.bool false) ++ rest)
              = serVal d (Json.bool false) ++ rest := by
            rw [e0]
            exact skipWs_cons_nonws _ _ (by decide)
          have h0 : startsB "null".data (serVal d (Json.bool false) ++ rest)
              = false := by
            rw [e0, show "null".data = 'n' :: "ull".data from rfl]
            exact startsB_cons_ne _ _ _ _ (by decide)
          have h0t : startsB "true".data (serVal d (Json.bool false) ++ rest)
              = false := by
            rw [e0, show "true".data = 't' :: "rue".data from rfl]
            exact startsB_cons_ne _ _ _ _ (by decide)
          have h1 : startsB "false".data (serVal d (Json.bool false) ++ rest)
              = true := startsB_refl_append _ _
          have h2 : (serVal d (Json.bool false) ++ rest).drop 5 = rest := by
            show ("false".data ++ rest).drop 5 = rest
            rw [show (5 : Nat) = ("false".data).length from rfl]
            exact List.drop_left _ _
          simp [parseVal, hsk, h0, h0t, h1, h2]
      | num n =>
        by_cases hneg : n < 0
        · have e0 : serVal d (Json.num n) ++ rest
              = '-' :: (natRepr n.natAbs ++ rest) := by
            show intRepr n ++ rest = _
            simp [intRepr, hneg]
          have hp : parseNum ('-' :: (natRepr n.natAbs ++ rest))
              = some (n, rest) := by
            have h := parseNum_intRepr n rest hr
            rw [show intRepr n ++ rest = '-' :: (natRepr n.natAbs ++ rest) from
              by simp [intRepr, hneg]] at h
            exact h
          rw [e0, parseVal_succ_nonkw f' '-' _ (by decide) (by decide)
            (by decide) (by decide)]
          simp [hp]
        · obtain ⟨c0, t0, hct0, hd0, _⟩ := natRepr_cons n.natAbs
          have e0 : serVal d (Json.num n) ++ rest = c0 :: (t0 ++ rest) := by
            show intRepr n ++ rest = _
            simp [intRepr, hneg, hct0]
          have hb : 48 ≤ c0.toNat ∧ c0.toNat ≤ 57 := by
            simpa [isDigitCh] using hd0
          have hnws : isJsWs c0 = false := (digit_not_ws c0 hd0).1
          have hne_n : c0 ≠ 'n' := fun e => by
            rw [e] at hb; exact absurd hb (by decide)
          have hne_t : c0 ≠ 't' := fun e => by
            rw [e] at hb; exact absurd hb (by decide)
          have hne_f : c0 ≠ 'f' := fun e => by
            rw [e] at hb; exact absurd hb (by decide)
          have hne_q : ¬ (c0 = '"') := fun e => by
            rw [e] at hb; exact absurd hb (by decide)
          have hne_lb : ¬ (c0 = '[') := fun e => by
            rw [e] at hb; exact absurd hb (by decide)
          have hne_ob : ¬ (c0 = '\x7b') := fun e => by
            rw [e] at hb; exact absurd hb (by decide)
          have hp : parseNum (c0 :: (t0 ++ rest)) = some (n, rest) := by
            have h := parseNum_intRepr n rest hr
            rw [show intRepr n ++ rest = c0 :: (t0 ++ rest) from
              by simp [intRepr, hneg, hct0]] at h
            exact h
          rw [e0, parseVal_succ_nonkw f' c0 _ hnws hne_n hne_t hne_f]
          simp [hp, hne_q, hne_lb, hne_ob, hd0]
      | str s =>
        have e0 : serVal d (Json.str s) ++ rest
            = '"' :: (escList s ++ ('"' :: rest)) := by
          show serStr s ++ rest = _
          simp [serStr]
        rw [e0, parseVal_succ_nonkw f' '"' _ (by decide) (by decide)
          (by decide) (by decide)]
        simp [parseStrBody_escList s rest]
      | arr xs =>
        cases xs with
        | nil =>
          have e0 : serVal d (Json.arr JArr.nil) ++ rest
              = '[' :: (']' :: rest) := rfl
          rw [e0, parseVal_succ_nonkw f' '[' _ (by decide) (by decide)
            (by decide) (by decide)]
          have hsk : skipWs (']' :: rest) = ']' :: rest :=
            skipWs_cons_nonws _ _ (by decide)
          simp [hsk]
        | cons x tl =>
          obtain ⟨c2, t2, hct2, hc2w, hc2br, _⟩ := serVal_head (d + 1) x
          have e0 : serVal d (Json.arr (JArr.cons x tl)) ++ rest
              = '[' :: '\n' :: (ind (d + 1) ++ (serVal (d + 1) x
                ++ (serTail (d + 1) tl ++ ('\n' :: (ind d ++ (']' :: rest)))))) := by
            simp [serVal, List.append_assoc]
          rw [e0, parseVal_succ_nonkw f' '[' _ (by decide) (by decide)
            (by decide) (by decide)]
          have h1 : '\n' :: (ind (d + 1) ++ (serVal (d + 1) x
                ++ (serTail (d + 1) tl ++ ('\n' :: (ind d ++ (']' :: rest))))))
              = ('\n' :: ind (d + 1)) ++ (serVal (d + 1) x
                ++ (serTail (d + 1) tl ++ ('\n' :: (ind d ++ (']' :: rest))))) := by
            simp
          have hsk : skipWs ('\n' :: (ind (d + 1) ++ (serVal (d + 1) x
                ++ (serTail (d + 1) tl ++ ('\n' :: (ind d ++ (']' :: rest)))))))
              = c2 :: (t2 ++ (serTail (d + 1) tl
                ++ ('\n' :: (ind d ++ (']' :: rest))))) := by
            rw [h1, skipWs_ws_append _ (wsOnly_nl_ind (d + 1)), hct2,
              List.cons_append]
            exact skipWs_cons_nonws _ _ hc2w
          have hfold : c2 :: (t2 ++ (serTail (d + 1) tl
                ++ ('\n' :: (ind d ++ (']' :: rest)))))
              = serVal (d + 1) x ++ (serTail (d + 1) tl
                ++ ('\n' :: (ind d ++ (']' :: rest)))) := by
            rw [hct2]
            simp
          have hfuel : jsizeL (JArr.cons x tl) ≤ f' := by
            simp only [jsizeV] at hv
            omega
          have hIH := (ih f' (by omega)).2.1 x tl hfuel d [] rest wsOnly_nil hr
          have hpe : parseElems f' (c2 :: (t2 ++ (serTail (d + 1) tl
                ++ ('\n' :: (ind d ++ (']' :: rest))))))
              = some (JArr.cons x tl, rest) := by
            rw [hfold]
            simpa using hIH
          simp [hsk, hc2br, hpe]
      | obj ms =>
        cases ms with
        | nil =>
          have e0 : serVal d (Json.obj JObj.nil) ++ rest
              = '\x7b' :: ('\x7d' :: rest) := rfl
          rw [e0, parseVal_succ_nonkw f' '\x7b' _ (by decide) (by decide)
            (by decide) (by decide)]
          have hsk : skipWs ('\x7d' :: rest) = '\x7d' :: rest :=
            skipWs_cons_nonws _ _ (by decide)
          simp [hsk]
        | cons k v tl =>
          have e0 : serVal d (Json.obj (JObj.cons k v tl)) ++ rest
              = '\x7b' :: '\n' :: (ind (d + 1) ++ (serStr k
                ++ (':' :: ' ' :: (serVal (d + 1) v ++ (serOTail (d + 1) tl
                  ++ ('\n' :: (ind d ++ ('\x7d' :: rest)))))))) := by
            simp [serVal, List.append_assoc]
          rw [e0, parseVal_succ_nonkw f' '\x7b' _ (by decide) (by decide)
            (by decide) (by decide)]
          have h1 : '\n' :: (ind (d + 1) ++ (serStr k
                ++ (':' :: ' ' :: (serVal (d + 1) v ++ (serOTail (d + 1) tl
                  ++ ('\n' :: (ind d ++ ('\x7d' :: rest))))))))
              = ('\n' :: ind (d + 1)) ++ (serStr k
                ++ (':' :: ' ' :: (serVal (d + 1) v ++ (serOTail (d + 1) tl
                  ++ ('\n' :: (ind d ++ ('\x7d' :: rest))))))) := by
            simp
          have hserk : serStr k ++ (':' :: ' ' :: (serVal (d + 1) v
                ++ (serOTail (d + 1) tl ++ ('\n' :: (ind d ++ ('\x7d' :: rest))))))
              = '"' :: (escList k ++ ('"' :: (':' :: ' ' :: (serVal (d + 1) v
                ++ (serOTail (d + 1) tl
                  ++ ('\n' :: (ind d ++ ('\x7d' :: rest)))))))) := by
            simp [serStr]
          have hsk : skipWs ('\n' :: (ind (d + 1) ++ (serStr k
                ++ (':' :: ' ' :: (serVal (d + 1) v ++ (serOTail (d + 1) tl
                  ++ ('\n' :: (ind d ++ ('\x7d' :: rest)))))))))
              = '"' :: (escList k ++ ('"' :: (':' :: ' ' :: (serVal (d + 1) v
                ++ (serOTail (d + 1) tl
                  ++ ('\n' :: (ind d ++ ('\x7d' :: rest)))))))) := by
            rw [h1, skipWs_ws_append _ (wsOnly_nl_ind (d + 1)), hserk]
            exact skipWs_cons_nonws _ _ (by decide)
          have hfuel : jsizeO (JObj.cons k v tl) ≤ f' := by
            simp only [jsizeV] at hv
            omega
          have hIH := (ih f' (by omega)).2.2 k v tl hfuel d [] rest wsOnly_nil hr
          have hpm : parseMembers f' ('"' :: (escList k
                ++ ('"' :: (':' :: ' ' :: (serVal (d + 1) v
                  ++ (serOTail (d + 1) tl
                    ++ ('\n' :: (ind d ++ ('\x7d' :: rest)))))))))
              = some (JObj.cons k v tl, rest) := by
            rw [← hserk]
            simpa using hIH
          simp [hsk, hpm]
    · intro x xs hsz d w rest hw hr
      obtain ⟨f', rfl⟩ : ∃ f', f = f' + 1 := by
        have h1 := jsizeL_pos xs
        have h2 := jsizeV_pos x
        simp only [jsizeL] at hsz
        cases f with
        | zero => omega
        | succ f2 => exact ⟨f2, rfl⟩
      have hfx : jsizeV x ≤ f' := by
        simp only [jsizeL] at hsz
        have := jsizeL_pos xs
        omega
      have hpv := (ih f' (by omega)).1 x hfx (d + 1) w
        (serTail (d + 1) xs ++ ('\n' :: (ind d ++ (']' :: rest)))) hw
        (restOK_serTail _ _ _)
      simp only [parseElems]
      rw [hpv]
      simp only [Option.bind_eq_bind, Option.some_bind]
      cases xs with
      | nil =>
        have hsk : skipWs (serTail (d + 1) JArr.nil
              ++ ('\n' :: (ind d ++ (']' :: rest)))) = ']' :: rest := by
          rw [show serTail (d + 1) JArr.nil ++ ('\n' :: (ind d ++ (']' :: rest)))
              = ('\n' :: ind d) ++ (']' :: rest) from by simp [serTail],
            skipWs_ws_append _ (wsOnly_nl_ind d)]
          exact skipWs_cons_nonws _ _ (by decide)
        simp [hsk]
      | cons y ys =>
        have hR : serTail (d + 1) (JArr.cons y ys)
              ++ ('\n' :: (ind d ++ (']' :: rest)))
            = ',' :: '\n' :: (ind (d + 1) ++ (serVal (d + 1) y
              ++ (serTail (d + 1) ys ++ ('\n' :: (ind d ++ (']' :: rest)))))) := by
          simp [serTail, List.append_assoc]
        have hsk : skipWs (serTail (d + 1) (JArr.cons y ys)
              ++ ('\n' :: (ind d ++ (']' :: rest))))
            = ',' :: '\n' :: (ind (d + 1) ++ (serVal (d + 1) y
              ++ (serTail (d + 1) ys ++ ('\n' :: (ind d ++ (']' :: rest)))))) := by
          rw [hR]
          exact skipWs_cons_nonws _ _ (by decide)
        have hfy : jsizeL (JArr.cons y ys) ≤ f' := by
          simp only [jsizeL] at hsz ⊢
          have := jsizeV_pos x
          omega
        have hIH := (ih f' (by omega)).2.1 y ys hfy d ('\n' :: ind (d + 1))
          rest (wsOnly_nl_ind _) hr
        have hpe : parseElems f' ('\n' :: (ind (d + 1) ++ (serVal (d + 1) y
              ++ (serTail (d + 1) ys ++ ('\n' :: (ind d ++ (']' :: rest)))))))
            = some (JArr.cons y ys, rest) := by
          rw [show '\n' :: (ind (d + 1) ++ (serVal (d + 1) y
              ++ (serTail (d + 1) ys ++ ('\n' :: (ind d ++ (']' :: rest))))))
            = ('\n' :: ind (d + 1)) ++ (serVal (d + 1) y
              ++ (serTail (d + 1) ys ++ ('\n' :: (ind d ++ (']' :: rest)))))
            from by simp]
          exact hIH
        simp [hsk, hpe]
    · intro k v ms hsz d w rest hw hr
      obtain ⟨f', rfl⟩ : ∃ f', f = f' + 1 := by
        have h1 := jsizeO_pos ms
        have h2 := jsizeV_pos v
        simp only [jsizeO] at hsz
        cases f with
        | zero => omega
        | succ f2 => exact ⟨f2, rfl⟩
      have hfv : jsizeV v ≤ f' := by
        simp only [jsizeO] at hsz
        have := jsizeO_pos ms
        omega
      have hserk : serStr k ++ (':' :: ' ' :: (serVal (d + 1) v
            ++ (serOTail (d + 1) ms ++ ('\n' :: (ind d ++ ('\x7d' :: rest))))))
          = '"' :: (escList k ++ ('"' :: (':' :: ' ' :: (serVal (d + 1) v
            ++ (serOTail (d + 1) ms
              ++ ('\n' :: (ind d ++ ('\x7d' :: rest)))))))) := by
        simp [serStr]
      have hsk : skipWs (w ++ (serStr k ++ (':' :: ' ' :: (serVal (d + 1) v
            ++ (serOTail (d + 1) ms ++ ('\n' :: (ind d ++ ('\x7d' :: rest))))))))
          = '"' :: (escList k ++ ('"' :: (':' :: ' ' :: (serVal (d + 1) v
            ++ (serOTail (d + 1) ms
              ++ ('\n' :: (ind d ++ ('\x7d' :: rest)))))))) := by
        rw [skipWs_ws_append w hw, hserk]
        exact skipWs_cons_nonws _ _ (by decide)
      have hps := parseStrBody_escList k (':' :: ' ' :: (serVal (d + 1) v
        ++ (serOTail (d + 1) ms ++ ('\n' :: (ind d ++ ('\x7d' :: rest))))))
      have hskY : skipWs (':' :: ' ' :: (serVal (d + 1) v
            ++ (serOTail (d + 1) ms ++ ('\n' :: (ind d ++ ('\x7d' :: rest))))))
          = ':' :: ' ' :: (serVal (d + 1) v
            ++ (serOTail (d + 1) ms ++ ('\n' :: (ind d ++ ('\x7d' :: rest))))) :=
        skipWs_cons_nonws _ _ (by decide)
      have hpv := (ih f' (by omega)).1 v hfv (d + 1) [' ']
        (serOTail (d + 1) ms ++ ('\n' :: (ind d ++ ('\x7d' :: rest)))) wsOnly_sp
        (restOK_serOTail _ _ _)
      have hpv' : parseVal f' (' ' :: (serVal (d + 1) v
            ++ (serOTail (d + 1) ms ++ ('\n' :: (ind d ++ ('\x7d' :: rest))))))
          = some (v, serOTail (d + 1) ms
              ++ ('\n' :: (ind d ++ ('\x7d' :: rest)))) := by
        rw [show ' ' :: (serVal (d + 1) v ++ (serOTail (d + 1) ms
            ++ ('\n' :: (ind d ++ ('\x7d' :: rest)))))
          = [' '] ++ (serVal (d + 1) v ++ (serOTail (d + 1) ms
            ++ ('\n' :: (ind d ++ ('\x7d' :: rest))))) from by simp]
        exact hpv
      simp only [parseMembers]
      rw [hsk]
      cases ms with
      | nil =>
        have hsk2 : skipWs (serOTail (d + 1) JObj.nil
              ++ ('\n' :: (ind d ++ ('\x7d' :: rest)))) = '\x7d' :: rest := by
          rw [show serOTail (d + 1) JObj.nil
              ++ ('\n' :: (ind d ++ ('\x7d' :: rest)))
              = ('\n' :: ind d) ++ ('\x7d' :: rest) from by simp [serOTail],
            skipWs_ws_append _ (wsOnly_nl_ind d)]
          exact skipWs_cons_nonws _ _ (by decide)
        simp [hps, hskY, hpv', hsk2]
      | cons k2 v2 ms2 =>
        have hR : serOTail (d + 1) (JObj.cons k2 v2 ms2)
              ++ ('\n' :: (ind d ++ ('\x7d' :: rest)))
            = ',' :: '\n' :: (ind (d + 1) ++ (serStr k2
              ++ (':' :: ' ' :: (serVal (d + 1) v2 ++ (serOTail (d + 1) ms2
                ++ ('\n' :: (ind d ++ ('\x7d' :: rest)))))))) := by
          simp [serOTail, List.append_assoc]
        have hsk2 : skipWs (serOTail (d + 1) (JObj.cons k2 v2 ms2)
              ++ ('\n' :: (ind d ++ ('\x7d' :: rest))))
            = ',' :: '\n' :: (ind (d + 1) ++ (serStr k2
              ++ (':' :: ' ' :: (serVal (d + 1) v2 ++ (serOTail (d + 1) ms2
                ++ ('\n' :: (ind d ++ ('\x7d' :: rest)))))))) := by
          rw [hR]
          exact skipWs_cons_nonws _ _ (by decide)
        have hfm : jsizeO (JObj.cons k2 v2 ms2) ≤ f' := by
          simp only [jsizeO] at hsz ⊢
          have := jsizeV_pos v
          omega
        have hIH := (ih f' (by omega)).2.2 k2 v2 ms2 hfm d
          ('\n' :: ind (d + 1)) rest (wsOnly_nl_ind _) hr
        have hpm : parseMembers f' ('\n' :: (ind (d + 1) ++ (serStr k2
              ++ (':' :: ' ' :: (serVal (d + 1) v2 ++ (serOTail (d + 1) ms2
                ++ ('\n' :: (ind d ++ ('\x7d' :: rest)))))))))
            = some (JObj.cons k2 v2 ms2, rest) := by
          rw [show '\n' :: (ind (d + 1) ++ (serStr k2
              ++ (':' :: ' ' :: (serVal (d + 1) v2 ++ (serOTail (d + 1) ms2
                ++ ('\n' :: (ind d ++ ('\x7d' :: rest))))))))
            = ('\n' :: ind (d + 1)) ++ (serStr k2
              ++ (':' :: ' ' :: (serVal (d + 1) v2 ++ (serOTail (d + 1) ms2
                ++ ('\n' :: (ind d ++ ('\x7d' :: rest)))))))
            from by simp]
          exact hIH
        simp [hps, hskY, hpv', hsk2, hpm]

/-- Claim C1: serializing any resume document with the Data Embedder's
`json.dumps(data, indent=2, ensure_ascii=False)` and parsing the text
back yields a structurally equal document — key order, nested structure
and unicode content preserved. -/
theorem claim_C1 : ∀ j : Json, loads (dumps j) = some j := by
  intro j
  have hsz : jsizeV j ≤ (serVal 0 j).length + 1 :=
    (szBound (sizeOf j)).1 j le_rfl 0
  have hpv := (serParse ((dumps j).length + 1)).1 j hsz 0 [] []
    wsOnly_nil restOK_nil
  have hpv' : parseVal ((dumps j).length + 1) (dumps j) = some (j, []) := by
    have h1 : ([] : List Char) ++ (serVal 0 j ++ ([] : List Char)) = dumps j := by
      simp [dumps]
    rw [h1] at hpv
    exact hpv
  simp [loads, hpv', skipWs]

/-- Claim C9: a missing or malformed resume document aborts the build
before anything is written, and in general output is produced only when
every stage has succeeded in memory: a successful run factors through the
theme stage, the SEO stage and the final data substitution, so no failure
leaves a partial output. -/
theorem claim_C9 :
    (∀ (t : Option (List Char)) (th : Option (Option Json)),
      runBuild ⟨none, t, th⟩ = none)
    ∧ (∀ (i : BuildInputs) (out : List Char), runBuild i = some out →
        ∃ cv tmpl t1 t2, i.cv = some cv ∧ i.template = some tmpl
          ∧ ((i.themeFile = none ∧ t1 = tmpl)
            ∨ (∃ theme, i.themeFile = some (some theme)
                ∧ embed_theme tmpl theme = some t1))
          ∧ embed_seo t1 cv = some t2
          ∧ out = embed_data t2 cv) := by
  constructor
  · intro t th
    rfl
  · intro i out h
    obtain ⟨cvq, tmplq, thq⟩ := i
    cases cvq with
    | none => simp [runBuild] at h
    | some cv =>
      cases tmplq with
      | none => simp [runBuild] at h
      | some tmpl =>
        cases thq with
        | none =>
          cases he : embed_seo tmpl cv with
          | none => simp [runBuild, he] at h
          | some t2 =>
            have hout : out = embed_data t2 cv := by
              simp [runBuild, he] at h
              exact h.symm
            exact ⟨cv, tmpl, tmpl, t2, rfl, rfl, Or.inl ⟨rfl, rfl⟩, he, hout⟩
        | some thv =>
          cases thv with
          | none => simp [runBuild] at h
          | some theme =>
            cases ht : embed_theme tmpl theme with
            | none => simp [runBuild, ht] at h
            | some t1 =>
              cases he : embed_seo t1 cv with
              | none => simp [runBuild, ht, he] at h
              | some t2 =>
                have hout : out = embed_data t2 cv := by
                  simp [runBuild, ht, he] at h
                  exact h.symm
                exact ⟨cv, tmpl, t1, t2, rfl, rfl,
                  Or.inr ⟨theme, rfl, ht⟩, he, hout⟩

/-- Witness for claim C9: the missing-resume input aborts, and a concrete
successful run (empty resume mapping, template "x", no theme file)
factors through all stages. -/
theorem claim_C9_witness :
    runBuild ⟨none, some ['x'], none⟩ = none
    ∧ (∃ cv tmpl t1 t2,
        (⟨some (jobj []), some ['x'], none⟩ : BuildInputs).cv = some cv
        ∧ (⟨some (jobj []), some ['x'], none⟩ : BuildInputs).template
            = some tmpl
        ∧ (((⟨some (jobj []), some ['x'], none⟩ : BuildInputs).themeFile = none
              ∧ t1 = tmpl)
          ∨ (∃ theme,
              (⟨some (jobj []), some ['x'], none⟩ : BuildInputs).themeFile
                  = some (some theme)
              ∧ embed_theme tmpl theme = some t1))
        ∧ embed_seo t1 cv = some t2
        ∧ ['x'] = embed_data t2 cv) :=
  ⟨claim_C9.1 (some ['x']) none,
   claim_C9.2 ⟨some (jobj []), some ['x'], none⟩ ['x'] rfl⟩
